import Mathlib

/-!
# otelmetricstream: the CloudWatch Metric Stream OpenTelemetry unmarshaler

A shallow embedding of
`receiver/awsfirehosereceiver/internal/unmarshaler/otelmetricstream/unmarshaler.go`.

* Bytes are natural numbers (a Go byte is a value below 256).
* A Go `[]byte` is a window on a backing array: `len` visible bytes followed by the bytes up to
  `cap`.  A slice expression `record[lo:hi]` on a slice is in range when `0 ≤ lo ≤ hi ≤ cap`, and
  faults (runtime panic) otherwise.
* Go `int` is the 64-bit signed integer: arithmetic wraps, `int(n)` reinterprets a `uint64`.
* The nested deserializer `req.UnmarshalProto` is a parameter of the embedding.
* The logger is a list of events, threaded through the state, and every call of the nested
  deserializer is recorded in a trace (record index and payload), both in program order.
* A call returns, faults, or exhausts the fuel of the embedding; `Unmarshal_ne_timeout` shows that
  the last never happens.
-/

namespace otelmetricstream

/-! ## Data model: `pmetric.Metrics` as far as this package observes it -/

/-- A `pcommon.Value`, which this package observes only through `AsString()`. -/
structure Value where
  AsString : String
deriving DecidableEq, Repr

/-- A `pcommon.Map`: the key/value entries in storage order. -/
abbrev Map := List (String × Value)

/-- The lookup `Map.Get(key)`: the value of the first entry with that key, `none` when `ok` is
false. -/
def Map.Get : Map → String → Option Value
  | [], _ => none
  | (k, v) :: rest, key => if k = key then some v else Map.Get rest key

/-- A metric; its content is not inspected by this package. -/
structure Metric where
  Name : String
deriving DecidableEq, Repr

/-- A `pmetric.ScopeMetrics`: the metrics of one instrumentation scope. -/
structure ScopeMetrics where
  Metrics : List Metric
deriving DecidableEq, Repr

/-- A `pcommon.Resource`, with its attribute map. -/
structure Resource where
  Attributes : Map
deriving DecidableEq, Repr

/-- A `pmetric.ResourceMetrics`: one resource group. -/
structure ResourceMetrics where
  Resource : Resource
  ScopeMetrics : List ScopeMetrics
deriving DecidableEq, Repr

/-- A `pmetric.Metrics`: a batch of resource groups. -/
structure Metrics where
  ResourceMetrics : List ResourceMetrics
deriving DecidableEq, Repr

/-- The constructor `pmetric.NewMetrics()`: the empty batch. -/
def NewMetrics : Metrics := ⟨[]⟩

/-- The number of metrics of one resource group: the inner loop of `MetricCount`. -/
def ResourceMetrics.count (rm : ResourceMetrics) : Nat :=
  (rm.ScopeMetrics.map (fun ilm => ilm.Metrics.length)).sum

/-- The method `Metrics.MetricCount()`: the metrics of all scopes of all resource groups. -/
def Metrics.MetricCount (ms : Metrics) : Nat :=
  (ms.ResourceMetrics.map ResourceMetrics.count).sum

/-- The method `ResourceMetricsSlice.MoveAndAppendTo(dest)`, seen from `dest`: the source
elements are appended in order. -/
def MoveAndAppendTo (es : List ResourceMetrics) (dest : Metrics) : Metrics :=
  ⟨dest.ResourceMetrics ++ es⟩

/-- The constant `conventions.AttributeCloudProvider` of semconv v1.6.1. -/
def AttributeCloudProvider : String := "cloud.provider"

/-- The constant `conventions.AttributeCloudProviderAWS` of semconv v1.6.1. -/
def AttributeCloudProviderAWS : String := "aws"

/-- The constant `TypeStr`. -/
def TypeStr : String := "otel_v1"

/-- The two error values of the package. -/
inductive Err
  | errInvalidRecords
  | errInvalidOtelFormatStart
deriving DecidableEq, Repr

/-- The message of an error value. -/
def Err.Error : Err → String
  | .errInvalidRecords => "record format invalid"
  | .errInvalidOtelFormatStart => "unable to decode integer from OpenTelemetry message"

/-! ## Machine integers and byte slices -/

/-- Two's complement wrap of a mathematical integer to the 64-bit Go `int`. -/
def wrapInt (x : Int) : Int :=
  (x + 9223372036854775808) % 18446744073709551616 - 9223372036854775808

/-- A Go `[]byte`: the `len` visible bytes, and the bytes of the backing array between `len`
and `cap`. -/
structure Record where
  bytes : List Nat
  spare : List Nat
deriving DecidableEq, Repr

/-- The length `len(record)`. -/
def Record.len (r : Record) : Int := r.bytes.length

/-- The capacity `cap(record)`. -/
def Record.cap (r : Record) : Int := r.bytes.length + r.spare.length

/-- The slice expression `record[lo:hi]`: `none` is the runtime panic "slice bounds out of
range". -/
def Record.slice (r : Record) (lo hi : Int) : Option (List Nat) :=
  if 0 ≤ lo ∧ lo ≤ hi ∧ hi ≤ r.cap then
    some (((r.bytes ++ r.spare).drop lo.toNat).take (hi - lo).toNat)
  else none

/-- Modelled from the spec: the loop of `proto.DecodeVarint` of the imported library
github.com/gogo/protobuf, which is not under src/. The spec calls it decoding a varint, "yielding
a value n and nLen (bytes consumed by the varint encoding itself)", a failed decode consuming zero
bytes. This is the library loop `for shift := 0; shift < 64; shift += 7`, which reads `buf[n]`,
ors its low seven bits into the 64-bit `x` at `shift`, and returns at the first byte without the
continuation bit; the argument list is `buf[n:]`. -/
def DecodeVarint.loop : List Nat → Nat → Nat → Nat → Nat × Nat
  | [], _, _, _ => (0, 0)
  | b :: rest, shift, x, n =>
    if shift < 64 then
      let x1 := x ||| (((b &&& 0x7F) <<< shift) % 18446744073709551616)
      if b &&& 0x80 = 0 then (x1, n + 1)
      else DecodeVarint.loop rest (shift + 7) x1 (n + 1)
    else (0, 0)

/-- Modelled from the spec: `proto.DecodeVarint(buf)` of github.com/gogo/protobuf, which is not
under src/: the decoded integer and the number of bytes consumed, or `(0, 0)` when the buffer ends
inside the varint or the varint is longer than ten bytes. -/
def DecodeVarint (buf : List Nat) : Nat × Nat :=
  DecodeVarint.loop buf 0 0 0

/-! ## The unmarshaler -/

/-- A structured log event of `u.logger.Error`: the message, the `zap.Error` field when there is
one, and the `record_index` field. -/
structure Event where
  msg : String
  error : Option String
  record_index : Nat
deriving DecidableEq, Repr

/-- The nested deserializer `req.UnmarshalProto` followed by `req.Metrics()`: an error, or the
deserialized sub-batch. -/
abbrev Deserializer := List Nat → Except String Metrics

/-- The state of one `Unmarshal` call: the accumulated batch `md`, the events logged so far, and
the trace of the calls of the nested deserializer (record index and payload). -/
structure St where
  md : Metrics
  log : List Event
  calls : List (Nat × List Nat)
deriving DecidableEq, Repr

/-- How the loops of `Unmarshal` are left. -/
inductive Step
  | next (st : St)
  | fatal (st : St)
  | fault (st : St)
  | timeout
deriving DecidableEq, Repr

/-- What a call of `Unmarshal` does: it returns a batch and an error (`none` is `nil`), it faults
with a runtime panic, or the embedding ran out of fuel. -/
inductive Result
  | ret (st : St) (err : Option Err)
  | fault (st : St)
  | timeout
deriving DecidableEq, Repr

/-- The method `isValid`, its loop over the resource groups: the first resource group without the
attribute, or with another value, returns false; after the loop the metric count decides. -/
def isValid.loop (metrics : Metrics) : List ResourceMetrics → Bool
  | [] => decide (metrics.MetricCount > 0)
  | rm :: rest =>
    match Map.Get rm.Resource.Attributes AttributeCloudProvider with
    | none => false
    | some val =>
      if val.AsString ≠ AttributeCloudProviderAWS then false
      else isValid.loop metrics rest

/-- The method `isValid`: validates that the metric has been unmarshalled correctly. -/
def isValid (metrics : Metrics) : Bool :=
  isValid.loop metrics metrics.ResourceMetrics

/-- The inner loop `for pos < dataLen` of `Unmarshal` on one record, from cursor `pos`; the first
argument bounds the number of iterations. -/
def Unmarshal.frames (UnmarshalProto : Deserializer) (recordIndex : Nat) (record : Record) :
    Nat → Int → St → Step
  | 0, _, _ => .timeout
  | fuel + 1, pos, st =>
    if pos < record.len then
      let n := (DecodeVarint record.bytes).1
      let nLen := (DecodeVarint record.bytes).2
      if nLen = 0 ∧ pos = 0 then .fatal st
      else
        match record.slice (wrapInt (pos + nLen)) (wrapInt (wrapInt (pos + nLen) + wrapInt n)) with
        | none => .fault st
        | some payload =>
          let pos1 := wrapInt (pos + wrapInt (wrapInt n + nLen))
          let calls1 := st.calls ++ [(recordIndex, payload)]
          match UnmarshalProto payload with
          | .error err =>
            Unmarshal.frames UnmarshalProto recordIndex record fuel pos1
              ⟨st.md, st.log ++ [⟨"Unable to unmarshal input", some err, recordIndex⟩], calls1⟩
          | .ok req =>
            if isValid req = false then
              Unmarshal.frames UnmarshalProto recordIndex record fuel pos1
                ⟨st.md, st.log ++ [⟨"Invalid metric", none, recordIndex⟩], calls1⟩
            else
              Unmarshal.frames UnmarshalProto recordIndex record fuel pos1
                ⟨MoveAndAppendTo req.ResourceMetrics st.md, st.log, calls1⟩
    else .next st

/-- The outer loop `for recordIndex, record := range records` of `Unmarshal`. Each record gets
`len(record) + 1` iterations of fuel, which it never exhausts. -/
def Unmarshal.records (UnmarshalProto : Deserializer) : List Record → Nat → St → Step
  | [], _, st => .next st
  | record :: rest, recordIndex, st =>
    match Unmarshal.frames UnmarshalProto recordIndex record (record.bytes.length + 1) 0 st with
    | .next st1 => Unmarshal.records UnmarshalProto rest (recordIndex + 1) st1
    | other => other

/-- The method `Unmarshal`: deserializes the records into `pmetric.Metrics`. -/
def Unmarshal (UnmarshalProto : Deserializer) (records : List Record) : Result :=
  match Unmarshal.records UnmarshalProto records 0 ⟨NewMetrics, [], []⟩ with
  | .next st =>
    if st.md.MetricCount = 0 then .ret st (some .errInvalidRecords)
    else .ret st none
  | .fatal st => .ret st (some .errInvalidOtelFormatStart)
  | .fault st => .fault st
  | .timeout => .timeout

/-! ## Vocabulary of the properties -/

/-- The resource group carries a `cloud.provider` attribute whose string value is `aws`. -/
def hasAWS (rm : ResourceMetrics) : Prop :=
  ∃ val, Map.Get rm.Resource.Attributes AttributeCloudProvider = some val ∧
    val.AsString = AttributeCloudProviderAWS

/-- The resource groups a visited frame contributes: all those of its sub-batch, in order, when
the payload deserializes and the sub-batch passes `isValid`, and none otherwise. -/
def frameGroups (d : Deserializer) (payload : List Nat) : List ResourceMetrics :=
  match d payload with
  | .ok req => if isValid req = true then req.ResourceMetrics else []
  | .error _ => []

/-- The metrics a visited frame contributes: the metric count of its sub-batch when the payload
deserializes and the sub-batch passes `isValid`, and 0 otherwise. -/
def frameCount (d : Deserializer) (payload : List Nat) : Nat :=
  match d payload with
  | .ok req => if isValid req = true then req.MetricCount else 0
  | .error _ => 0

/-- The frame is skipped: its payload fails nested deserialization, or its sub-batch fails
`isValid`. -/
def rejected (d : Deserializer) (payload : List Nat) : Bool :=
  match d payload with
  | .error _ => true
  | .ok req => isValid req = false

/-- The state a loop was left with, if it was left. -/
def Step.st : Step → Option St
  | .next st => some st
  | .fatal st => some st
  | .fault st => some st
  | .timeout => none

/-- The loop invariant of `Unmarshal`: the accumulated batch is made of the groups of the frames
visited so far, every group is tagged `aws`, and a non-empty batch has a metric. -/
structure Inv (d : Deserializer) (st : St) : Prop where
  groups : st.md.ResourceMetrics = (st.calls.map (fun c => frameGroups d c.2)).flatten
  count : st.md.MetricCount = (st.calls.map (fun c => frameCount d c.2)).sum
  aws : ∀ rm ∈ st.md.ResourceMetrics, hasAWS rm
  metric : st.md.ResourceMetrics = [] ∨ 0 < st.md.MetricCount

/-- Two loop exits agree up to the log and the trace: the same kind of exit, with the same
batch. -/
def Step.sim : Step → Step → Prop
  | .next a, .next b => a.md = b.md
  | .fatal a, .fatal b => a.md = b.md
  | .fault _, .fault _ => True
  | .timeout, .timeout => True
  | _, _ => False

/-- Two loop exits agree on the calls of the nested deserializer: the same kind of exit, with
the same trace. -/
def Step.sameCalls : Step → Step → Prop
  | .next a, .next b => a.calls = b.calls
  | .fatal a, .fatal b => a.calls = b.calls
  | .fault a, .fault b => a.calls = b.calls
  | .timeout, .timeout => True
  | _, _ => False

/-- The trace is in record order: the record indices never decrease along the trace, and they
stay below `k`. -/
def St.inOrder (k : Nat) (st : St) : Prop :=
  (st.calls.map Prod.fst).Pairwise (· ≤ ·) ∧ ∀ c ∈ st.calls, c.1 < k

/-- What the caller of `Unmarshal` receives: the batch and the error, or nothing when the call
does not return. -/
def Result.output : Result → Option (Metrics × Option Err)
  | .ret st err => some (st.md, err)
  | .fault _ => none
  | .timeout => none

/-- The calls of the nested deserializer made during the call. -/
def Result.calls : Result → List (Nat × List Nat)
  | .ret st _ => st.calls
  | .fault st => st.calls
  | .timeout => []

/-- The call ended in a runtime panic. -/
def Result.faulted : Result → Bool
  | .fault _ => true
  | _ => false

/-- A resource group tagged `aws` with `k` metrics in one scope. -/
def rmAWS (k : Nat) : ResourceMetrics :=
  ⟨⟨[("cloud.provider", ⟨"aws"⟩)]⟩, [⟨List.replicate k ⟨"m"⟩⟩]⟩

/-- A resource group without the `cloud.provider` attribute, with one metric. -/
def rmBare : ResourceMetrics :=
  ⟨⟨[("service.name", ⟨"aws"⟩)]⟩, [⟨[⟨"m"⟩]⟩]⟩

/-- A deserializer for examples: the payload `[7]` is a valid sub-batch of one metric, `[8]` is a
sub-batch without the attribute, every other payload is undecodable. -/
def sampleProto : Deserializer := fun payload =>
  if payload = [7] then .ok ⟨[rmAWS 1]⟩
  else if payload = [8] then .ok ⟨[rmBare]⟩
  else .error "proto: illegal wireType"

/-- One record of three frames of one byte each: the payloads `[7]`, `[8]` and `[9]`. -/
def sampleRecords : List Record := [⟨[1, 7, 1, 8, 1, 9], []⟩]

/-- The state `Unmarshal sampleProto sampleRecords` returns: the first frame merged, the second
reported invalid, the third reported undecodable. -/
def sampleSt : St :=
  ⟨⟨[rmAWS 1]⟩,
   [⟨"Invalid metric", none, 0⟩,
    ⟨"Unable to unmarshal input", some "proto: illegal wireType", 0⟩],
   [(0, [7]), (0, [8]), (0, [9])]⟩

/-- A deserializer for a record of two frames: the payloads `[7]` and `[8, 9, 10]` are valid
sub-batches of one metric each, every other payload is undecodable. -/
def twoFrameProto : Deserializer := fun payload =>
  if payload = [7] ∨ payload = [8, 9, 10] then .ok ⟨[rmAWS 1]⟩
  else .error "proto: illegal wireType"

/-- One record made of two back-to-back frames: length prefix 1 and payload `[7]`, then length
prefix 3 and payload `[8, 9, 10]`. -/
def twoFrameRecord : Record := ⟨[1, 7, 3, 8, 9, 10], []⟩

/-- One record of two bytes whose frame declares five payload bytes where one remains. -/
def shortRecord : Record := ⟨[5, 1], []⟩

/-- The type `Unmarshaler`: its only field is the logger, kept as the events it has received. -/
structure Unmarshaler where
  logger : List Event
deriving DecidableEq, Repr

/-- The constructor `NewUnmarshaler`: creates a new instance of the Unmarshaler. -/
def NewUnmarshaler (logger : List Event) : Unmarshaler := ⟨logger⟩

/-- The method `Type`: type of the serialized messages. -/
def Unmarshaler.Type (_u : Unmarshaler) : String := TypeStr

/-- The record of the five bytes `0xFF 0xFF 0xFF 0xFF 0xFF`. -/
def ffRecord : Record := ⟨[0xFF, 0xFF, 0xFF, 0xFF, 0xFF], []⟩

/-- The body of one iteration of the inner loop after the payload was sliced: the call of the
nested deserializer is recorded, and the frame is reported undecodable, reported invalid, or
merged. -/
def St.frame (d : Deserializer) (recordIndex : Nat) (payload : List Nat) (st : St) : St :=
  match d payload with
  | .error err =>
    ⟨st.md, st.log ++ [⟨"Unable to unmarshal input", some err, recordIndex⟩],
      st.calls ++ [(recordIndex, payload)]⟩
  | .ok req =>
    if isValid req = false then
      ⟨st.md, st.log ++ [⟨"Invalid metric", none, recordIndex⟩],
        st.calls ++ [(recordIndex, payload)]⟩
    else
      ⟨MoveAndAppendTo req.ResourceMetrics st.md, st.log, st.calls ++ [(recordIndex, payload)]⟩

/-- The payload `p` is the slice `record[j*(n+nLen)+nLen : (j+1)*(n+nLen)]` of the record, where
`n` and `nLen` are the varint decoded at offset 0 of the record. -/
def Record.isFrame (r : Record) (j : Nat) (p : List Nat) : Prop :=
  r.slice
    ((j * ((DecodeVarint r.bytes).1 + (DecodeVarint r.bytes).2) + (DecodeVarint r.bytes).2 : Nat) :
      Int)
    (((j + 1) * ((DecodeVarint r.bytes).1 + (DecodeVarint r.bytes).2) : Nat) : Int) = some p

/-- Every call of the trace carries the index of a record of the batch, and its payload is a
frame slice of that record. -/
def St.tagged (records : List Record) (st : St) : Prop :=
  ∀ c ∈ st.calls, ∃ r j, records[c.1]? = some r ∧ r.isFrame j c.2

/-- The event the logger receives for a visited frame, if any: the frame is reported undecodable,
reported invalid, or merged silently. -/
def frameEvent (d : Deserializer) (c : Nat × List Nat) : Option Event :=
  match d c.2 with
  | .error err => some ⟨"Unable to unmarshal input", some err, c.1⟩
  | .ok req => if isValid req = false then some ⟨"Invalid metric", none, c.1⟩ else none

/-- Two loop exits are of the same kind, and their batches are related by `R`. -/
def Step.rel (R : Metrics → Metrics → Prop) : Step → Step → Prop
  | .next a, .next b => R a.md b.md
  | .fatal a, .fatal b => R a.md b.md
  | .fault _, .fault _ => True
  | .timeout, .timeout => True
  | _, _ => False

/-- Modelled from the spec: the loop of `proto.EncodeVarint` of the imported library
github.com/gogo/protobuf, which is not under src/; it is the `varint(len p)` that prefixes a frame.
While `x > 127` the loop emits `0x80 | (x & 0x7F)` and shifts `x` right by seven bits; the first
argument bounds the number of such bytes (nine suffice for a 64-bit value). -/
def EncodeVarint.loop : Nat → Nat → List Nat
  | 0, x => [x]
  | fuel + 1, x =>
    if x > 127 then (0x80 ||| (x &&& 0x7F)) :: EncodeVarint.loop fuel (x >>> 7)
    else [x]

/-- Modelled from the spec: `proto.EncodeVarint(x)` of github.com/gogo/protobuf, which is not
under src/: the varint-encoded bytes of a 64-bit value, between one and ten of them. -/
def EncodeVarint (x : Nat) : List Nat :=
  EncodeVarint.loop 9 x

/-- The frame of a payload: the varint of its length, then the payload. -/
def frameOf (p : List Nat) : List Nat :=
  EncodeVarint p.length ++ p

/-- The bytes `record[j*(n+nLen)+nLen : (j+1)*(n+nLen)]` of the backing array, where `n` and
`nLen` are the varint decoded at offset 0 of the record: the payload of the `j`-th frame as the
loop cuts it. -/
def Record.payloadAt (r : Record) (j : Nat) : List Nat :=
  ((r.bytes ++ r.spare).drop
    (j * ((DecodeVarint r.bytes).1 + (DecodeVarint r.bytes).2) + (DecodeVarint r.bytes).2)).take
      (DecodeVarint r.bytes).1

/-- The number of frames of a record as the loop cuts it: the strides of `n + nLen` bytes needed
to reach `len(record)`. -/
def Record.frameCount (r : Record) : Nat :=
  (r.bytes.length + ((DecodeVarint r.bytes).1 + (DecodeVarint r.bytes).2) - 1) /
    ((DecodeVarint r.bytes).1 + (DecodeVarint r.bytes).2)

/-- The frames of a record, in frame order, computed from its bytes alone. -/
def Record.frames (r : Record) : List (List Nat) :=
  (List.range r.frameCount).map r.payloadAt

/-- Every frame of every record of a batch, in record order and then frame order, each with the
index of its record; the first record has index `i`. -/
def framesFrom : Nat → List Record → List (Nat × List Nat)
  | _, [] => []
  | i, r :: rest => r.frames.map (fun p => (i, p)) ++ framesFrom (i + 1) rest

/-- A deserializer for examples of order: the payload `[6]` is a valid sub-batch of two resource
groups (two and three metrics), `[7]` a valid sub-batch of one group, `[8]` a sub-batch without
the attribute, every other payload is undecodable. -/
def orderProto : Deserializer := fun payload =>
  if payload = [6] then .ok ⟨[rmAWS 2, rmAWS 3]⟩
  else if payload = [7] then .ok ⟨[rmAWS 1]⟩
  else if payload = [8] then .ok ⟨[rmBare]⟩
  else .error "proto: illegal wireType"

/-- Three records: frames `[6]`, `[8]`, `[7]`, then an empty record, then frames `[7]`, `[9]`,
`[6]`. -/
def orderRecords : List Record :=
  [⟨[1, 6, 1, 8, 1, 7], []⟩, ⟨[], [0]⟩, ⟨[1, 7, 1, 9, 1, 6], []⟩]

/-- The state `Unmarshal orderProto orderRecords` returns. -/
def orderSt : St :=
  ⟨⟨[rmAWS 2, rmAWS 3, rmAWS 1, rmAWS 1, rmAWS 2, rmAWS 3]⟩,
   [⟨"Invalid metric", none, 0⟩,
    ⟨"Unable to unmarshal input", some "proto: illegal wireType", 2⟩],
   [(0, [6]), (0, [8]), (0, [7]), (2, [7]), (2, [9]), (2, [6])]⟩

end otelmetricstream

/-! ## Theorems -/

namespace otelmetricstream

/-! ### Validation -/

theorem isValid_loop_iff (metrics : Metrics) (rms : List ResourceMetrics) :
    isValid.loop metrics rms = true ↔ 0 < metrics.MetricCount ∧ ∀ rm ∈ rms, hasAWS rm := by
  induction rms with
  | nil => simp [isValid.loop]
  | cons rm rest ih =>
    unfold isValid.loop
    cases hget : Map.Get rm.Resource.Attributes AttributeCloudProvider with
    | none => simp [hasAWS, hget]
    | some val =>
      by_cases hv : val.AsString = AttributeCloudProviderAWS
      · simp [hasAWS, hget, hv, ih]
      · simp [hasAWS, hget, hv]

theorem isValid_iff (metrics : Metrics) :
    isValid metrics = true ↔
      0 < metrics.MetricCount ∧ ∀ rm ∈ metrics.ResourceMetrics, hasAWS rm :=
  isValid_loop_iff metrics metrics.ResourceMetrics

/-- C7: `isValid m` is true exactly when the metric count of `m` is positive and every resource
group of `m` has a `cloud.provider` attribute whose string value is `aws`; hence one resource group
without the attribute, or with another value, rejects the batch whatever the other groups are, and
a batch without metrics is rejected. -/
theorem isValid_spec (m : Metrics) :
    (isValid m = true ↔
      0 < m.MetricCount ∧
        ∀ rm ∈ m.ResourceMetrics, ∃ val,
          Map.Get rm.Resource.Attributes AttributeCloudProvider = some val ∧
            val.AsString = AttributeCloudProviderAWS) ∧
    (∀ rm ∈ m.ResourceMetrics,
        Map.Get rm.Resource.Attributes AttributeCloudProvider = none → isValid m = false) ∧
    (∀ rm ∈ m.ResourceMetrics, ∀ val,
        Map.Get rm.Resource.Attributes AttributeCloudProvider = some val →
          val.AsString ≠ AttributeCloudProviderAWS → isValid m = false) ∧
    (m.MetricCount = 0 → isValid m = false) ∧
    (m.ResourceMetrics = [] → isValid m = false) := by
  have key := isValid_iff m
  refine ⟨key, ?_, ?_, ?_, ?_⟩
  · intro rm hrm hnone
    cases hv : isValid m with
    | false => rfl
    | true =>
      obtain ⟨val, hval, _⟩ := (key.mp hv).2 rm hrm
      rw [hnone] at hval
      cases hval
  · intro rm hrm val hsome hne
    cases hv : isValid m with
    | false => rfl
    | true =>
      obtain ⟨val1, hval, heq⟩ := (key.mp hv).2 rm hrm
      rw [hsome] at hval
      cases hval
      exact absurd heq hne
  · intro hzero
    cases hv : isValid m with
    | false => rfl
    | true => have := (key.mp hv).1; omega
  · intro hnil
    cases hv : isValid m with
    | false => rfl
    | true =>
      have := (key.mp hv).1
      simp [Metrics.MetricCount, hnil] at this

/-! ### The loop invariant -/

theorem MetricCount_MoveAndAppendTo (es : List ResourceMetrics) (dest : Metrics) :
    (MoveAndAppendTo es dest).MetricCount =
      dest.MetricCount + (es.map ResourceMetrics.count).sum := by
  simp [MoveAndAppendTo, Metrics.MetricCount, List.sum_append]

theorem Inv_init (d : Deserializer) : Inv d ⟨NewMetrics, [], []⟩ :=
  ⟨rfl, rfl, by simp [NewMetrics], Or.inl rfl⟩

theorem Inv_error (d : Deserializer) (st : St) (log : List Event) (i : Nat) (p : List Nat)
    (err : String) (hd : d p = .error err) (h : Inv d st) :
    Inv d ⟨st.md, log, st.calls ++ [(i, p)]⟩ := by
  refine ⟨?_, ?_, h.aws, h.metric⟩
  · simp [frameGroups, hd, h.groups]
  · simp [frameCount, hd, h.count]

theorem Inv_invalid (d : Deserializer) (st : St) (log : List Event) (i : Nat) (p : List Nat)
    (req : Metrics) (hd : d p = .ok req) (hv : isValid req = false) (h : Inv d st) :
    Inv d ⟨st.md, log, st.calls ++ [(i, p)]⟩ := by
  refine ⟨?_, ?_, h.aws, h.metric⟩
  · simp [frameGroups, hd, hv, h.groups]
  · simp [frameCount, hd, hv, h.count]

theorem Inv_merge (d : Deserializer) (st : St) (log : List Event) (i : Nat) (p : List Nat)
    (req : Metrics) (hd : d p = .ok req) (hv : isValid req = true) (h : Inv d st) :
    Inv d ⟨MoveAndAppendTo req.ResourceMetrics st.md, log, st.calls ++ [(i, p)]⟩ := by
  have hreq := (isValid_iff req).mp hv
  refine ⟨?_, ?_, ?_, ?_⟩
  · simp [frameGroups, hd, hv, h.groups, MoveAndAppendTo]
  · rw [MetricCount_MoveAndAppendTo, h.count]
    simp [frameCount, hd, hv, Metrics.MetricCount]
  · intro rm hrm
    simp only [MoveAndAppendTo, List.mem_append] at hrm
    rcases hrm with hrm | hrm
    · exact h.aws rm hrm
    · exact hreq.2 rm hrm
  · right
    rw [MetricCount_MoveAndAppendTo]
    have := hreq.1
    unfold Metrics.MetricCount at this
    omega

theorem frames_preserves (d : Deserializer) (i : Nat) (r : Record) (P : St → Prop)
    (herr : ∀ (st : St) (p : List Nat) (e : String), P st → d p = .error e →
      P ⟨st.md, st.log ++ [⟨"Unable to unmarshal input", some e, i⟩], st.calls ++ [(i, p)]⟩)
    (hinvalid : ∀ (st : St) (p : List Nat) (req : Metrics), P st → d p = .ok req →
      isValid req = false →
      P ⟨st.md, st.log ++ [⟨"Invalid metric", none, i⟩], st.calls ++ [(i, p)]⟩)
    (hmerge : ∀ (st : St) (p : List Nat) (req : Metrics), P st → d p = .ok req →
      isValid req = true →
      P ⟨MoveAndAppendTo req.ResourceMetrics st.md, st.log, st.calls ++ [(i, p)]⟩)
    (fuel : Nat) :
    ∀ (pos : Int) (st : St), P st →
      ∀ st1 ∈ (Unmarshal.frames d i r fuel pos st).st, P st1 := by
  induction fuel with
  | zero => intro pos st _ st1 h; simp [Unmarshal.frames, Step.st] at h
  | succ fuel ih =>
    intro pos st hP st1 h
    unfold Unmarshal.frames at h
    split at h
    · dsimp only at h
      split at h
      · simp only [Step.st, Option.mem_def, Option.some.injEq] at h; exact h ▸ hP
      · split at h
        · simp only [Step.st, Option.mem_def, Option.some.injEq] at h; exact h ▸ hP
        · rename_i payload _
          split at h
          · rename_i e hd
            exact ih _ _ (herr st payload e hP hd) st1 h
          · rename_i req hd
            split at h
            · rename_i hv
              exact ih _ _ (hinvalid st payload req hP hd hv) st1 h
            · rename_i hv
              exact ih _ _ (hmerge st payload req hP hd (by simpa using hv)) st1 h
    · simp only [Step.st, Option.mem_def, Option.some.injEq] at h; exact h ▸ hP

theorem frames_Inv (d : Deserializer) (i : Nat) (r : Record) (fuel : Nat) :
    ∀ (pos : Int) (st : St), Inv d st →
      ∀ st1 ∈ (Unmarshal.frames d i r fuel pos st).st, Inv d st1 :=
  frames_preserves d i r (Inv d)
    (fun st p e h hd => Inv_error d st _ i p e hd h)
    (fun st p req h hd hv => Inv_invalid d st _ i p req hd hv h)
    (fun st p req h hd hv => Inv_merge d st _ i p req hd hv h) fuel

theorem records_Inv (d : Deserializer) (records : List Record) :
    ∀ (i : Nat) (st : St), Inv d st →
      ∀ st1 ∈ (Unmarshal.records d records i st).st, Inv d st1 := by
  induction records with
  | nil =>
    intro i st hinv st1 h
    simp only [Unmarshal.records, Step.st, Option.mem_def, Option.some.injEq] at h
    exact h ▸ hinv
  | cons r rest ih =>
    intro i st hinv st1 h
    unfold Unmarshal.records at h
    have hf := frames_Inv d i r (r.bytes.length + 1) 0 st hinv
    cases hres : Unmarshal.frames d i r (r.bytes.length + 1) 0 st with
    | next st2 =>
      rw [hres] at h hf
      exact ih _ _ (hf st2 rfl) st1 h
    | fatal st2 => rw [hres] at h hf; exact hf st1 h
    | fault st2 => rw [hres] at h hf; exact hf st1 h
    | timeout => rw [hres] at h; simp [Step.st] at h

theorem Unmarshal_ret_records (d : Deserializer) (records : List Record) (st : St)
    (err : Option Err) (h : Unmarshal d records = .ret st err) :
    (Unmarshal.records d records 0 ⟨NewMetrics, [], []⟩ = .next st ∧
        err = (if st.md.MetricCount = 0 then some .errInvalidRecords else none)) ∨
      (Unmarshal.records d records 0 ⟨NewMetrics, [], []⟩ = .fatal st ∧
        err = some .errInvalidOtelFormatStart) := by
  unfold Unmarshal at h
  split at h
  · rename_i st2 heq
    left
    split at h <;> simp only [Result.ret.injEq] at h <;> obtain ⟨h1, h2⟩ := h <;> subst h1 <;>
      simp_all
  · rename_i st2 heq
    right
    simp only [Result.ret.injEq] at h
    obtain ⟨h1, h2⟩ := h
    subst h1
    exact ⟨heq, h2.symm⟩
  · cases h
  · cases h

theorem Unmarshal_ret_Inv (d : Deserializer) (records : List Record) (st : St)
    (err : Option Err) (h : Unmarshal d records = .ret st err) : Inv d st := by
  rcases Unmarshal_ret_records d records st err h with ⟨h1, _⟩ | ⟨h1, _⟩
  · exact records_Inv d records 0 _ (Inv_init d) st (by rw [h1]; rfl)
  · exact records_Inv d records 0 _ (Inv_init d) st (by rw [h1]; rfl)

/-! ### The trace is in record order -/

theorem inOrder_mono (k m : Nat) (st : St) (hkm : k ≤ m) (h : St.inOrder k st) :
    St.inOrder m st :=
  ⟨h.1, fun c hc => Nat.lt_of_lt_of_le (h.2 c hc) hkm⟩

theorem inOrder_push (i : Nat) (st : St) (md : Metrics) (log : List Event) (p : List Nat)
    (h : St.inOrder (i + 1) st) : St.inOrder (i + 1) ⟨md, log, st.calls ++ [(i, p)]⟩ := by
  obtain ⟨h1, h2⟩ := h
  refine ⟨?_, ?_⟩
  · simp only [List.map_append, List.map_cons, List.map_nil]
    rw [List.pairwise_append]
    refine ⟨h1, List.pairwise_singleton _ _, ?_⟩
    intro a ha b hb
    obtain ⟨c, hc, rfl⟩ := List.mem_map.mp ha
    have hbi : b = i := by simpa using hb
    have := h2 c hc
    omega
  · intro c hc
    rcases List.mem_append.mp hc with hc | hc
    · exact h2 c hc
    · have hci : c = (i, p) := by simpa using hc
      rw [hci]
      exact Nat.lt_succ_self i

theorem frames_inOrder (d : Deserializer) (i : Nat) (r : Record) (fuel : Nat) :
    ∀ (pos : Int) (st : St), St.inOrder (i + 1) st →
      ∀ st1 ∈ (Unmarshal.frames d i r fuel pos st).st, St.inOrder (i + 1) st1 :=
  frames_preserves d i r (St.inOrder (i + 1))
    (fun st p _ h _ => inOrder_push i st _ _ p h)
    (fun st p _ h _ _ => inOrder_push i st _ _ p h)
    (fun st p _ h _ _ => inOrder_push i st _ _ p h) fuel

theorem records_inOrder (d : Deserializer) (records : List Record) :
    ∀ (i : Nat) (st : St), St.inOrder i st →
      ∀ st1 ∈ (Unmarshal.records d records i st).st, St.inOrder (i + records.length) st1 := by
  induction records with
  | nil =>
    intro i st hord st1 h
    simp only [Unmarshal.records, Step.st, Option.mem_def, Option.some.injEq] at h
    exact h ▸ hord
  | cons r rest ih =>
    intro i st hord st1 h
    unfold Unmarshal.records at h
    have hf := frames_inOrder d i r (r.bytes.length + 1) 0 st
      (inOrder_mono i (i + 1) st (Nat.le_succ i) hord)
    have hlen : i + 1 + rest.length = i + (r :: rest).length := by
      simp only [List.length_cons]; omega
    cases hres : Unmarshal.frames d i r (r.bytes.length + 1) 0 st with
    | next st2 =>
      rw [hres] at h hf
      exact hlen ▸ ih _ _ (hf st2 rfl) st1 h
    | fatal st2 =>
      rw [hres] at h hf
      exact inOrder_mono _ _ st1 (by simp only [List.length_cons]; omega) (hf st1 h)
    | fault st2 =>
      rw [hres] at h hf
      exact inOrder_mono _ _ st1 (by simp only [List.length_cons]; omega) (hf st1 h)
    | timeout => rw [hres] at h; simp [Step.st] at h

theorem Unmarshal_ret_inOrder (d : Deserializer) (records : List Record) (st : St)
    (err : Option Err) (h : Unmarshal d records = .ret st err) :
    St.inOrder records.length st := by
  have h0 : St.inOrder 0 ⟨NewMetrics, [], []⟩ :=
    ⟨List.Pairwise.nil, fun c hc => by simp at hc⟩
  have key := records_inOrder d records 0 _ h0 st
  rw [Nat.zero_add] at key
  rcases Unmarshal_ret_records d records st err h with ⟨h1, _⟩ | ⟨h1, _⟩
  · exact key (by rw [h1]; rfl)
  · exact key (by rw [h1]; rfl)

/-! ### Merging -/

/-- C2: when `Unmarshal` returns, the metric count of the returned batch is the sum over the
visited frames of the metric count of the frame's sub-batch when the payload deserialized and
`isValid` held, and of 0 for a frame that failed deserialization or validation. -/
theorem Unmarshal_MetricCount (d : Deserializer) (records : List Record) (st : St)
    (err : Option Err) (h : Unmarshal d records = .ret st err) :
    st.md.MetricCount =
      (st.calls.map (fun c =>
        match d c.2 with
        | .ok req => if isValid req = true then req.MetricCount else 0
        | .error _ => 0)).sum :=
  (Unmarshal_ret_Inv d records st err h).count

theorem Unmarshal_MetricCount_witness :
    Unmarshal sampleProto sampleRecords = .ret sampleSt none ∧
      sampleSt.md.MetricCount =
        (sampleSt.calls.map (fun c =>
          match sampleProto c.2 with
          | .ok req => if isValid req = true then req.MetricCount else 0
          | .error _ => 0)).sum :=
  ⟨by decide, Unmarshal_MetricCount sampleProto sampleRecords sampleSt none (by decide)⟩

/-- C3: every resource group of a batch returned by `Unmarshal`, whatever the error returned with
it (nil, "record format invalid" or the framing error), has a `cloud.provider` attribute whose
string value is `aws`. -/
theorem Unmarshal_cloud_provider (d : Deserializer) (records : List Record) (st : St)
    (err : Option Err) (h : Unmarshal d records = .ret st err) :
    ∀ rm ∈ st.md.ResourceMetrics, ∃ val,
      Map.Get rm.Resource.Attributes AttributeCloudProvider = some val ∧
        val.AsString = AttributeCloudProviderAWS :=
  (Unmarshal_ret_Inv d records st err h).aws

theorem Unmarshal_cloud_provider_witness :
    Unmarshal sampleProto sampleRecords = .ret sampleSt none ∧
      ∀ rm ∈ sampleSt.md.ResourceMetrics, ∃ val,
        Map.Get rm.Resource.Attributes AttributeCloudProvider = some val ∧
          val.AsString = AttributeCloudProviderAWS :=
  ⟨by decide, Unmarshal_cloud_provider sampleProto sampleRecords sampleSt none (by decide)⟩

/-- C9: when `Unmarshal` returns without the framing error, the error is nil exactly when the
returned batch has at least one metric and is "record format invalid" otherwise, and in that other
case the returned batch has no resource group at all. -/
theorem Unmarshal_error_iff (d : Deserializer) (records : List Record) (st : St)
    (err : Option Err) (h : Unmarshal d records = .ret st err)
    (hstart : err ≠ some .errInvalidOtelFormatStart) :
    (err = none ↔ 1 ≤ st.md.MetricCount) ∧
      (err ≠ none → err = some .errInvalidRecords ∧ st.md.ResourceMetrics = [] ∧
        st.md.MetricCount = 0) := by
  have hinv := Unmarshal_ret_Inv d records st err h
  rcases Unmarshal_ret_records d records st err h with ⟨_, he⟩ | ⟨_, he⟩
  · by_cases hc : st.md.MetricCount = 0
    · rw [if_pos hc] at he
      subst he
      refine ⟨by simp [hc], fun _ => ⟨rfl, ?_, hc⟩⟩
      rcases hinv.metric with hm | hm
      · exact hm
      · omega
    · rw [if_neg hc] at he
      subst he
      exact ⟨by simp; omega, fun hne => absurd rfl hne⟩
  · exact absurd he hstart

theorem Unmarshal_error_iff_witness :
    Unmarshal sampleProto [⟨[1, 8], []⟩] =
        .ret ⟨NewMetrics, [⟨"Invalid metric", none, 0⟩], [(0, [8])]⟩ (some .errInvalidRecords) ∧
      ((some Err.errInvalidRecords = none ↔ 1 ≤ NewMetrics.MetricCount) ∧
        (some Err.errInvalidRecords ≠ none →
          some Err.errInvalidRecords = some .errInvalidRecords ∧
            NewMetrics.ResourceMetrics = [] ∧ NewMetrics.MetricCount = 0)) :=
  ⟨by decide,
   Unmarshal_error_iff sampleProto [⟨[1, 8], []⟩]
     ⟨NewMetrics, [⟨"Invalid metric", none, 0⟩], [(0, [8])]⟩ (some .errInvalidRecords)
     (by decide) (by decide)⟩

/-! ### Framing arithmetic and totality of the embedding -/

theorem DecodeVarint_loop_le (buf : List Nat) :
    ∀ shift x n, (DecodeVarint.loop buf shift x n).2 ≤ n + (70 - shift) / 7 := by
  induction buf with
  | nil => intro shift x n; simp [DecodeVarint.loop]
  | cons b rest ih =>
    intro shift x n
    unfold DecodeVarint.loop
    split
    · dsimp only
      split
      · dsimp only; omega
      · have := ih (shift + 7) (x ||| (((b &&& 0x7F) <<< shift) % 18446744073709551616)) (n + 1)
        omega
    · simp

theorem DecodeVarint_le (buf : List Nat) : (DecodeVarint buf).2 ≤ 10 := by
  have := DecodeVarint_loop_le buf 0 0 0
  unfold DecodeVarint
  omega

theorem wrapInt_range (x : Int) :
    -9223372036854775808 ≤ wrapInt x ∧ wrapInt x < 9223372036854775808 := by
  unfold wrapInt; omega

theorem slice_some (r : Record) (lo hi : Int) (payload : List Nat)
    (h : r.slice lo hi = some payload) : 0 ≤ lo ∧ lo ≤ hi ∧ hi ≤ r.cap := by
  unfold Record.slice at h
  split at h
  · assumption
  · cases h

theorem cursor_advance (pos n : Int) (nLen : Nat) (hpos : 0 ≤ pos)
    (hlt : pos < 9223372036854775808) (h1 : nLen ≠ 0) (h10 : nLen ≤ 10)
    (hlo : 0 ≤ wrapInt (pos + nLen))
    (hhi : wrapInt (pos + nLen) ≤ wrapInt (wrapInt (pos + nLen) + wrapInt n)) :
    wrapInt (pos + wrapInt (wrapInt n + nLen)) = wrapInt (wrapInt (pos + nLen) + wrapInt n) ∧
      pos < wrapInt (pos + wrapInt (wrapInt n + nLen)) := by
  have e : wrapInt (pos + wrapInt (wrapInt n + nLen)) =
      wrapInt (wrapInt (pos + nLen) + wrapInt n) := by
    unfold wrapInt; omega
  refine ⟨e, ?_⟩
  rw [e]
  have : pos < wrapInt (pos + nLen) := by
    unfold wrapInt at hlo ⊢; omega
  omega

theorem frames_ne_timeout (d : Deserializer) (i : Nat) (r : Record) (fuel : Nat) :
    ∀ (pos : Int) (st : St), 0 ≤ pos → pos < 9223372036854775808 →
      (pos = 0 ∨ (DecodeVarint r.bytes).2 ≠ 0) → 0 < fuel → r.len - pos < fuel →
      Unmarshal.frames d i r fuel pos st ≠ .timeout := by
  induction fuel with
  | zero => intro pos st _ _ _ h; omega
  | succ fuel ih =>
    intro pos st hpos hlt hn _ hfuel
    unfold Unmarshal.frames
    split
    · rename_i hlen
      dsimp only
      split
      · simp
      · rename_i hfatal
        have h1 : (DecodeVarint r.bytes).2 ≠ 0 := by
          rcases hn with hn | hn
          · intro h0; exact hfatal ⟨h0, hn⟩
          · exact hn
        split
        · simp
        · rename_i payload hs
          obtain ⟨hlo, hhi, _⟩ := slice_some r _ _ payload hs
          obtain ⟨_, hadv⟩ := cursor_advance pos _ _ hpos hlt h1 (DecodeVarint_le r.bytes) hlo hhi
          have hr := wrapInt_range
            (pos + wrapInt (wrapInt ((DecodeVarint r.bytes).1 : Int) + ((DecodeVarint r.bytes).2 : Nat)))
          have key : ∀ st1, Unmarshal.frames d i r fuel
              (wrapInt (pos + wrapInt (wrapInt ((DecodeVarint r.bytes).1 : Int) +
                ((DecodeVarint r.bytes).2 : Nat)))) st1 ≠ .timeout := by
            intro st1
            apply ih
            · omega
            · exact hr.2
            · exact Or.inr h1
            · omega
            · omega
          split
          · exact key _
          · split
            · exact key _
            · exact key _
    · simp

theorem records_ne_timeout (d : Deserializer) (records : List Record) :
    ∀ (i : Nat) (st : St), Unmarshal.records d records i st ≠ .timeout := by
  induction records with
  | nil => intro i st; simp [Unmarshal.records]
  | cons r rest ih =>
    intro i st
    unfold Unmarshal.records
    have hf := frames_ne_timeout d i r (r.bytes.length + 1) 0 st (le_refl 0) (by decide)
      (Or.inl rfl) (by omega) (by simp [Record.len])
    cases hres : Unmarshal.frames d i r (r.bytes.length + 1) 0 st with
    | next st2 => exact ih _ _
    | fatal st2 => simp
    | fault st2 => simp
    | timeout => exact absurd hres hf

theorem Unmarshal_ne_timeout (d : Deserializer) (records : List Record) :
    Unmarshal d records ≠ .timeout := by
  unfold Unmarshal
  have := records_ne_timeout d records 0 ⟨NewMetrics, [], []⟩
  split
  · split <;> simp
  · simp
  · simp
  · simp_all

/-! ### Records are processed one after the other -/

theorem frames_done (d : Deserializer) (i : Nat) (r : Record) (fuel : Nat) (pos : Int) (st : St)
    (h : ¬ pos < r.len) : Unmarshal.frames d i r (fuel + 1) pos st = .next st := by
  unfold Unmarshal.frames
  rw [if_neg h]

theorem frames_fatal (d : Deserializer) (i : Nat) (r : Record) (fuel : Nat) (pos : Int) (st : St)
    (h : pos < r.len) (h0 : (DecodeVarint r.bytes).2 = 0) (hpos : pos = 0) :
    Unmarshal.frames d i r (fuel + 1) pos st = .fatal st := by
  unfold Unmarshal.frames
  rw [if_pos h]
  dsimp only
  rw [if_pos ⟨h0, hpos⟩]

theorem frames_empty (d : Deserializer) (i : Nat) (r : Record) (st : St)
    (h : r.bytes = []) : Unmarshal.frames d i r (r.bytes.length + 1) 0 st = .next st :=
  frames_done d i r _ 0 st (by simp [Record.len, h])

theorem frames_bad_start (d : Deserializer) (i : Nat) (r : Record) (st : St)
    (hne : r.bytes ≠ []) (h0 : (DecodeVarint r.bytes).2 = 0) :
    Unmarshal.frames d i r (r.bytes.length + 1) 0 st = .fatal st := by
  have hlen : (0 : Int) < r.len := by
    cases hb : r.bytes with
    | nil => exact absurd hb hne
    | cons b rest => simp only [Record.len, hb, List.length_cons]; omega
  exact frames_fatal d i r _ 0 st hlen h0 rfl

theorem records_cons (d : Deserializer) (r : Record) (rest : List Record) (i : Nat) (st : St) :
    Unmarshal.records d (r :: rest) i st =
      match Unmarshal.frames d i r (r.bytes.length + 1) 0 st with
      | .next st1 => Unmarshal.records d rest (i + 1) st1
      | other => other := by
  rw [Unmarshal.records]

theorem records_nil (d : Deserializer) (i : Nat) (st : St) :
    Unmarshal.records d [] i st = .next st := by
  rw [Unmarshal.records]

theorem records_append (d : Deserializer) (A B : List Record) :
    ∀ (i : Nat) (st : St),
      Unmarshal.records d (A ++ B) i st =
        match Unmarshal.records d A i st with
        | .next st1 => Unmarshal.records d B (i + A.length) st1
        | other => other := by
  induction A with
  | nil => intro i st; rw [records_nil]; rfl
  | cons r rest ih =>
    intro i st
    rw [List.cons_append, records_cons, records_cons]
    cases hres : Unmarshal.frames d i r (r.bytes.length + 1) 0 st with
    | next st2 =>
      dsimp only
      rw [ih, List.length_cons]
      have : i + 1 + rest.length = i + (rest.length + 1) := by omega
      rw [this]
    | fatal st2 => rfl
    | fault st2 => rfl
    | timeout => rfl

/-- C5: in a batch `pre ++ [bad] ++ suf` where `bad` is a non-empty record whose leading varint
cannot be decoded and the records of `pre` are processed to the end (the call on `pre` returns
without the framing error), `Unmarshal` returns the framing error with exactly what the call on
`pre` accumulated, whatever `suf` is: no later record is processed. -/
theorem Unmarshal_bad_start (d : Deserializer) (pre : List Record) (bad : Record) (st : St)
    (err : Option Err) (h : Unmarshal d pre = .ret st err)
    (hpre : err ≠ some .errInvalidOtelFormatStart) (hne : bad.bytes ≠ [])
    (h0 : (DecodeVarint bad.bytes).2 = 0) :
    ∀ suf : List Record,
      Unmarshal d (pre ++ bad :: suf) = .ret st (some .errInvalidOtelFormatStart) := by
  intro suf
  rcases Unmarshal_ret_records d pre st err h with ⟨h1, _⟩ | ⟨_, he⟩
  · unfold Unmarshal
    rw [records_append, h1]
    dsimp only
    rw [records_cons, frames_bad_start d _ bad st hne h0]
  · exact absurd he hpre

theorem Unmarshal_bad_start_witness :
    Unmarshal sampleProto sampleRecords = .ret sampleSt none ∧
      ∀ suf : List Record,
        Unmarshal sampleProto (sampleRecords ++ ⟨[0xFF, 0xFF, 0xFF, 0xFF, 0xFF], []⟩ :: suf) =
          .ret sampleSt (some .errInvalidOtelFormatStart) :=
  ⟨by decide,
   Unmarshal_bad_start sampleProto sampleRecords ⟨[0xFF, 0xFF, 0xFF, 0xFF, 0xFF], []⟩ sampleSt none
     (by decide) (by decide) (by decide) (by decide)⟩

/-! ### The batch does not depend on the record index -/

theorem frames_sim (d : Deserializer) (i j : Nat) (r : Record) (fuel : Nat) :
    ∀ (pos : Int) (st st1 : St), st.md = st1.md →
      Step.sim (Unmarshal.frames d i r fuel pos st) (Unmarshal.frames d j r fuel pos st1) := by
  induction fuel with
  | zero => intro pos st st1 _; rw [Unmarshal.frames, Unmarshal.frames]; trivial
  | succ fuel ih =>
    intro pos st st1 hmd
    rw [Unmarshal.frames, Unmarshal.frames]
    by_cases hlt : pos < r.len
    · rw [if_pos hlt, if_pos hlt]
      dsimp only
      by_cases hf : (DecodeVarint r.bytes).2 = 0 ∧ pos = 0
      · rw [if_pos hf, if_pos hf]; exact hmd
      · rw [if_neg hf, if_neg hf]
        cases hs : r.slice (wrapInt (pos + ((DecodeVarint r.bytes).2 : Nat)))
            (wrapInt (wrapInt (pos + ((DecodeVarint r.bytes).2 : Nat)) +
              wrapInt ((DecodeVarint r.bytes).1 : Nat))) with
        | none => trivial
        | some payload =>
          dsimp only
          cases hd : d payload with
          | error e => exact ih _ _ _ hmd
          | ok req =>
            dsimp only
            by_cases hv : isValid req = false
            · rw [if_pos hv, if_pos hv]; exact ih _ _ _ hmd
            · rw [if_neg hv, if_neg hv]
              exact ih _ _ _ (by rw [hmd])
    · rw [if_neg hlt, if_neg hlt]; exact hmd

theorem records_sim (d : Deserializer) (records : List Record) :
    ∀ (i j : Nat) (st st1 : St), st.md = st1.md →
      Step.sim (Unmarshal.records d records i st) (Unmarshal.records d records j st1) := by
  induction records with
  | nil => intro i j st st1 hmd; rw [records_nil, records_nil]; exact hmd
  | cons r rest ih =>
    intro i j st st1 hmd
    rw [records_cons, records_cons]
    have hf := frames_sim d i j r (r.bytes.length + 1) 0 st st1 hmd
    cases h1 : Unmarshal.frames d i r (r.bytes.length + 1) 0 st <;>
      cases h2 : Unmarshal.frames d j r (r.bytes.length + 1) 0 st1 <;>
      rw [h1, h2] at hf <;> first
        | exact ih _ _ _ _ hf
        | exact hf
        | exact False.elim hf

theorem Step.sim_refl (a : Step) : Step.sim a a := by
  cases a <;> simp [Step.sim]

theorem Unmarshal_output_of_sim (d : Deserializer) (A B : List Record)
    (h : Step.sim (Unmarshal.records d A 0 ⟨NewMetrics, [], []⟩)
      (Unmarshal.records d B 0 ⟨NewMetrics, [], []⟩)) :
    (Unmarshal d A).output = (Unmarshal d B).output := by
  unfold Unmarshal
  cases h1 : Unmarshal.records d A 0 ⟨NewMetrics, [], []⟩ <;>
    cases h2 : Unmarshal.records d B 0 ⟨NewMetrics, [], []⟩ <;>
    rw [h1, h2] at h <;> first
      | exact False.elim h
      | rfl
      | (have hab : _ = _ := h
         dsimp only
         rw [hab]
         split <;> simp [Result.output, hab])
      | (have hab : _ = _ := h
         simp [Result.output, hab])

/-- C10: an empty record contributes nothing and causes no error by itself: inserting a
zero-length byte buffer (of any capacity) at any position of a batch changes neither the batch nor
the error that `Unmarshal` returns, nor whether it returns. -/
theorem Unmarshal_insert_empty (d : Deserializer) (pre post : List Record) (spare : List Nat) :
    (Unmarshal d (pre ++ ⟨[], spare⟩ :: post)).output = (Unmarshal d (pre ++ post)).output := by
  apply Unmarshal_output_of_sim
  rw [records_append, records_append]
  cases h1 : Unmarshal.records d pre 0 ⟨NewMetrics, [], []⟩ with
  | next st =>
    dsimp only
    rw [records_cons, frames_empty d _ ⟨[], spare⟩ st rfl]
    exact records_sim d post _ _ st st rfl
  | fatal st => exact Step.sim_refl _
  | fault st => exact Step.sim_refl _
  | timeout => exact Step.sim_refl _

/-! ### Batches without an accepted frame -/

theorem frames_ne_fatal (d : Deserializer) (i : Nat) (r : Record)
    (hn : (DecodeVarint r.bytes).2 ≠ 0) (fuel : Nat) :
    ∀ (pos : Int) (st st1 : St), Unmarshal.frames d i r fuel pos st ≠ .fatal st1 := by
  induction fuel with
  | zero => intro pos st st1; rw [Unmarshal.frames]; simp
  | succ fuel ih =>
    intro pos st st1
    rw [Unmarshal.frames]
    split
    · dsimp only
      split
      · rename_i hf; exact absurd hf.1 hn
      · split
        · simp
        · split
          · exact ih _ _ _
          · split
            · exact ih _ _ _
            · exact ih _ _ _
    · simp

theorem records_ne_fatal (d : Deserializer) (records : List Record)
    (hstart : ∀ r ∈ records, r.bytes ≠ [] → (DecodeVarint r.bytes).2 ≠ 0) :
    ∀ (i : Nat) (st st1 : St), Unmarshal.records d records i st ≠ .fatal st1 := by
  induction records with
  | nil => intro i st st1; rw [records_nil]; simp
  | cons r rest ih =>
    intro i st st1
    rw [records_cons]
    have hrest := ih (fun r1 h1 => hstart r1 (List.mem_cons_of_mem _ h1))
    by_cases hb : r.bytes = []
    · rw [frames_empty d i r st hb]
      exact hrest _ _ _
    · have hf := frames_ne_fatal d i r (hstart r (List.mem_cons_self _ _) hb)
        (r.bytes.length + 1) 0 st
      cases h1 : Unmarshal.frames d i r (r.bytes.length + 1) 0 st with
      | next st2 => exact hrest _ _ _
      | fatal st2 => exact absurd h1 (hf st2)
      | fault st2 => simp
      | timeout => simp

theorem frameGroups_rejected (d : Deserializer) (p : List Nat) (h : rejected d p = true) :
    frameGroups d p = [] := by
  unfold rejected at h
  unfold frameGroups
  cases hd : d p with
  | error e => rfl
  | ok req =>
    rw [hd] at h
    have hv : isValid req = false := by simpa using h
    simp [hv]

/-- C8: when no record triggers the framing error (every non-empty record has a decodable
leading varint; the empty batch qualifies) and every visited frame fails nested deserialization or
fails `isValid` (so every visited frame reaches the deserializer: no slice faults), `Unmarshal`
returns "record format invalid" with a batch of zero resource groups and zero metrics. -/
theorem Unmarshal_all_rejected (d : Deserializer) (records : List Record)
    (hfault : (Unmarshal d records).faulted = false)
    (hstart : ∀ r ∈ records, r.bytes ≠ [] → (DecodeVarint r.bytes).2 ≠ 0)
    (hbad : ∀ c ∈ (Unmarshal d records).calls, rejected d c.2 = true) :
    ∃ st, Unmarshal d records = .ret st (some .errInvalidRecords) ∧
      st.md.ResourceMetrics = [] ∧ st.md.MetricCount = 0 := by
  have hnf := records_ne_fatal d records hstart 0 ⟨NewMetrics, [], []⟩
  have hnt := records_ne_timeout d records 0 ⟨NewMetrics, [], []⟩
  have hinv := records_Inv d records 0 ⟨NewMetrics, [], []⟩ (Inv_init d)
  unfold Unmarshal at hfault hbad ⊢
  cases h1 : Unmarshal.records d records 0 ⟨NewMetrics, [], []⟩ with
  | next st =>
    rw [h1] at hfault hbad hinv
    have hI := hinv st rfl
    have hcalls : ∀ c ∈ st.calls, rejected d c.2 = true := by
      intro c hc
      apply hbad c
      dsimp only
      split <;> exact hc
    have hnil : st.md.ResourceMetrics = [] := by
      rw [hI.groups, List.flatten_eq_nil_iff]
      intro l hl
      obtain ⟨c, hc, rfl⟩ := List.mem_map.mp hl
      exact frameGroups_rejected d c.2 (hcalls c hc)
    have hzero : st.md.MetricCount = 0 := by simp [Metrics.MetricCount, hnil]
    refine ⟨st, ?_, hnil, hzero⟩
    dsimp only
    rw [if_pos hzero]
  | fatal st => exact absurd h1 (hnf st)
  | fault st => rw [h1] at hfault; simp [Result.faulted] at hfault
  | timeout => exact absurd h1 hnt

theorem Unmarshal_all_rejected_witness :
    ∃ st, Unmarshal sampleProto [⟨[1, 8, 1, 9], []⟩, ⟨[], []⟩, ⟨[0], [5]⟩] =
        .ret st (some .errInvalidRecords) ∧
      st.md.ResourceMetrics = [] ∧ st.md.MetricCount = 0 :=
  Unmarshal_all_rejected sampleProto [⟨[1, 8, 1, 9], []⟩, ⟨[], []⟩, ⟨[0], [5]⟩]
    (by decide) (by decide) (by decide)

/-! ### Framing does not depend on the nested deserializer -/

theorem frames_sameCalls (d d1 : Deserializer) (i : Nat) (r : Record) (fuel : Nat) :
    ∀ (pos : Int) (st st1 : St), st.calls = st1.calls →
      Step.sameCalls (Unmarshal.frames d i r fuel pos st)
        (Unmarshal.frames d1 i r fuel pos st1) := by
  induction fuel with
  | zero => intro pos st st1 _; rw [Unmarshal.frames, Unmarshal.frames]; trivial
  | succ fuel ih =>
    intro pos st st1 hc
    rw [Unmarshal.frames, Unmarshal.frames]
    by_cases hlt : pos < r.len
    · rw [if_pos hlt, if_pos hlt]
      dsimp only
      by_cases hf : (DecodeVarint r.bytes).2 = 0 ∧ pos = 0
      · rw [if_pos hf, if_pos hf]; exact hc
      · rw [if_neg hf, if_neg hf]
        cases hs : r.slice (wrapInt (pos + ((DecodeVarint r.bytes).2 : Nat)))
            (wrapInt (wrapInt (pos + ((DecodeVarint r.bytes).2 : Nat)) +
              wrapInt ((DecodeVarint r.bytes).1 : Nat))) with
        | none => exact hc
        | some payload =>
          dsimp only
          have key : ∀ (md md1 : Metrics) (log log1 : List Event),
              Step.sameCalls
                (Unmarshal.frames d i r fuel
                  (wrapInt (pos + wrapInt (wrapInt ((DecodeVarint r.bytes).1 : Nat) +
                    ((DecodeVarint r.bytes).2 : Nat))))
                  ⟨md, log, st.calls ++ [(i, payload)]⟩)
                (Unmarshal.frames d1 i r fuel
                  (wrapInt (pos + wrapInt (wrapInt ((DecodeVarint r.bytes).1 : Nat) +
                    ((DecodeVarint r.bytes).2 : Nat))))
                  ⟨md1, log1, st1.calls ++ [(i, payload)]⟩) :=
            fun md md1 log log1 => ih _ _ _ (by rw [hc])
          cases hd : d payload <;> cases hd1 : d1 payload <;> dsimp only
          · exact key _ _ _ _
          · split <;> exact key _ _ _ _
          · split <;> exact key _ _ _ _
          · split <;> split <;> exact key _ _ _ _
    · rw [if_neg hlt, if_neg hlt]; exact hc

theorem records_sameCalls (d d1 : Deserializer) (records : List Record) :
    ∀ (i : Nat) (st st1 : St), st.calls = st1.calls →
      Step.sameCalls (Unmarshal.records d records i st)
        (Unmarshal.records d1 records i st1) := by
  induction records with
  | nil => intro i st st1 hc; rw [records_nil, records_nil]; exact hc
  | cons r rest ih =>
    intro i st st1 hc
    rw [records_cons, records_cons]
    have hf := frames_sameCalls d d1 i r (r.bytes.length + 1) 0 st st1 hc
    cases h1 : Unmarshal.frames d i r (r.bytes.length + 1) 0 st <;>
      cases h2 : Unmarshal.frames d1 i r (r.bytes.length + 1) 0 st1 <;>
      rw [h1, h2] at hf <;> first
        | exact ih _ _ _ hf
        | exact hf
        | exact False.elim hf

theorem Unmarshal_sameCalls (d d1 : Deserializer) (records : List Record) :
    (Unmarshal d records).calls = (Unmarshal d1 records).calls := by
  have h := records_sameCalls d d1 records 0 ⟨NewMetrics, [], []⟩ ⟨NewMetrics, [], []⟩ rfl
  unfold Unmarshal
  cases h1 : Unmarshal.records d records 0 ⟨NewMetrics, [], []⟩ <;>
    cases h2 : Unmarshal.records d1 records 0 ⟨NewMetrics, [], []⟩ <;>
    rw [h1, h2] at h <;> first
      | exact False.elim h
      | rfl
      | (have hab : _ = _ := h
         dsimp only
         split <;> split <;> exact hab)
      | (have hab : _ = _ := h
         exact hab)

/-! ### Where the code departs from the specification -/

/-- C4: the frame length and prefix size are decoded at offset 0 of the record in every
iteration, not at the cursor. On one record of two back-to-back frames with payloads `[7]` and
`[8, 9, 10]` the payloads handed to the nested deserializer are `[7]`, `[8]` and `[10]`, whatever
the deserializer is; and when the two payloads are valid sub-batches of one metric each, the call
returns one metric, not two. -/
theorem Unmarshal_two_frames :
    DecodeVarint [1, 7, 3, 8, 9, 10] = (1, 1) ∧ DecodeVarint [3, 8, 9, 10] = (3, 1) ∧
    twoFrameRecord.bytes = [1] ++ [7] ++ ([3] ++ [8, 9, 10]) ∧
    (∀ d : Deserializer,
      (Unmarshal d [twoFrameRecord]).calls = [(0, [7]), (0, [8]), (0, [10])]) ∧
    twoFrameProto [7] = .ok ⟨[rmAWS 1]⟩ ∧ twoFrameProto [8, 9, 10] = .ok ⟨[rmAWS 1]⟩ ∧
    isValid ⟨[rmAWS 1]⟩ = true ∧ Metrics.MetricCount ⟨[rmAWS 1]⟩ = 1 ∧
    Unmarshal twoFrameProto [twoFrameRecord] =
      .ret ⟨⟨[rmAWS 1]⟩,
            [⟨"Unable to unmarshal input", some "proto: illegal wireType", 0⟩,
             ⟨"Unable to unmarshal input", some "proto: illegal wireType", 0⟩],
            [(0, [7]), (0, [8]), (0, [10])]⟩ none :=
  ⟨by decide, by decide, by decide,
   fun d => (Unmarshal_sameCalls d twoFrameProto [twoFrameRecord]).trans (by decide),
   rfl, rfl, by decide, by decide, by decide⟩

theorem DecodeVarint_loop_lt (buf : List Nat) :
    ∀ shift x n, x < 18446744073709551616 →
      (DecodeVarint.loop buf shift x n).1 < 18446744073709551616 := by
  induction buf with
  | nil => intro shift x n _; simp [DecodeVarint.loop]
  | cons b rest ih =>
    intro shift x n hx
    have hor : x ||| (((b &&& 0x7F) <<< shift) % 18446744073709551616) <
        18446744073709551616 := by
      have h2 : (18446744073709551616 : Nat) = 2 ^ 64 := by norm_num
      rw [h2] at hx ⊢
      exact Nat.or_lt_two_pow hx (Nat.mod_lt _ (by positivity))
    unfold DecodeVarint.loop
    split
    · dsimp only
      split
      · exact hor
      · exact ih _ _ _ hor
    · simp

theorem DecodeVarint_lt (buf : List Nat) : (DecodeVarint buf).1 < 18446744073709551616 :=
  DecodeVarint_loop_lt buf 0 0 0 (by decide)

theorem frames_fault (d : Deserializer) (i : Nat) (r : Record) (fuel : Nat) (pos : Int) (st : St)
    (h : pos < r.len) (hf : ¬ ((DecodeVarint r.bytes).2 = 0 ∧ pos = 0))
    (hs : r.slice (wrapInt (pos + ((DecodeVarint r.bytes).2 : Nat)))
        (wrapInt (wrapInt (pos + ((DecodeVarint r.bytes).2 : Nat)) +
          wrapInt ((DecodeVarint r.bytes).1 : Nat))) = none) :
    Unmarshal.frames d i r (fuel + 1) pos st = .fault st := by
  rw [Unmarshal.frames, if_pos h]
  dsimp only
  rw [if_neg hf, hs]

theorem slice_short (r : Record) (n nLen : Nat) (hn : n < 18446744073709551616)
    (h10 : nLen ≤ 10) (hshort : r.cap < (nLen : Int) + n) :
    r.slice (wrapInt (0 + (nLen : Nat))) (wrapInt (wrapInt (0 + (nLen : Nat)) + wrapInt (n : Nat)))
      = none := by
  unfold Record.slice
  rw [if_neg]
  intro hb
  unfold wrapInt at hb
  omega

theorem Unmarshal_sameFault (d d1 : Deserializer) (records : List Record) :
    (Unmarshal d records).faulted = (Unmarshal d1 records).faulted := by
  have h := records_sameCalls d d1 records 0 ⟨NewMetrics, [], []⟩ ⟨NewMetrics, [], []⟩ rfl
  unfold Unmarshal
  cases h1 : Unmarshal.records d records 0 ⟨NewMetrics, [], []⟩ <;>
    cases h2 : Unmarshal.records d1 records 0 ⟨NewMetrics, [], []⟩ <;>
    rw [h1, h2] at h <;> first
      | exact False.elim h
      | rfl
      | (dsimp only
         split <;> split <;> rfl)

/-- C6: a first frame whose declared length exceeds the bytes that remain after its length
prefix, up to the capacity of the record, is not skipped: the slice expression is out of range and
the call faults before the nested deserializer is reached, whatever the deserializer is. -/
theorem Unmarshal_short_frame (d : Deserializer) (r : Record) (rest : List Record)
    (hne : r.bytes ≠ []) (hn : (DecodeVarint r.bytes).2 ≠ 0)
    (hshort : r.cap < ((DecodeVarint r.bytes).2 : Int) + (DecodeVarint r.bytes).1) :
    Unmarshal d (r :: rest) = .fault ⟨NewMetrics, [], []⟩ := by
  have hlen : (0 : Int) < r.len := by
    cases hb : r.bytes with
    | nil => exact absurd hb hne
    | cons b tl => simp only [Record.len, hb, List.length_cons]; omega
  have hf := frames_fault d 0 r r.bytes.length 0 ⟨NewMetrics, [], []⟩ hlen
    (fun h => hn h.1) (slice_short r _ _ (DecodeVarint_lt r.bytes) (DecodeVarint_le r.bytes) hshort)
  unfold Unmarshal
  rw [records_cons, hf]

theorem Unmarshal_short_frame_witness :
    DecodeVarint shortRecord.bytes = (5, 1) ∧ shortRecord.cap = 2 ∧
      ∀ d : Deserializer, Unmarshal d [shortRecord] = .fault ⟨NewMetrics, [], []⟩ :=
  ⟨by decide, by decide,
   fun d => Unmarshal_short_frame d shortRecord [] (by decide) (by decide) (by decide)⟩

/-- A frame whose declared length exceeds `len(record)` but not `cap(record)` does not fault:
the payload handed to the nested deserializer runs past the end of the record into the spare
capacity of the backing array. -/
theorem Unmarshal_spare_frame (d : Deserializer) :
    (Unmarshal d [⟨[2, 7], [9]⟩]).calls = [(0, [7, 9])] ∧
      (Unmarshal d [⟨[2, 7], [9]⟩]).faulted = false :=
  ⟨(Unmarshal_sameCalls d sampleProto _).trans (by decide),
   (Unmarshal_sameFault d sampleProto _).trans (by decide)⟩

/-! ### Undecodable leading varints -/

theorem DecodeVarint_loop_continued (buf : List Nat) :
    ∀ shift x n, (∀ b ∈ buf.take ((70 - shift) / 7), b &&& 0x80 ≠ 0) →
      DecodeVarint.loop buf shift x n = (0, 0) := by
  induction buf with
  | nil => intro shift x n _; rfl
  | cons b rest ih =>
    intro shift x n h
    unfold DecodeVarint.loop
    split
    · rename_i hlt
      dsimp only
      obtain ⟨k, hk⟩ : ∃ k, (70 - shift) / 7 = k + 1 := ⟨(70 - shift) / 7 - 1, by omega⟩
      rw [hk, List.take_succ_cons] at h
      rw [if_neg (h b (List.mem_cons_self _ _))]
      apply ih
      intro b1 hb1
      have hk1 : (70 - (shift + 7)) / 7 = k := by omega
      rw [hk1] at hb1
      exact h b1 (List.mem_cons_of_mem _ hb1)
    · rfl

theorem DecodeVarint_continued (buf : List Nat) (h : ∀ b ∈ buf.take 10, b &&& 0x80 ≠ 0) :
    DecodeVarint buf = (0, 0) :=
  DecodeVarint_loop_continued buf 0 0 0 h

/-- C11: a non-empty first record whose varint at offset 0 is truncated (fewer than ten bytes,
all with the continuation bit) or overlong (the first ten bytes all have the continuation bit)
makes `Unmarshal` return the framing error with the empty batch, no log event and no call of the
nested deserializer. -/
theorem Unmarshal_bad_varint (d : Deserializer) (r : Record) (rest : List Record)
    (hne : r.bytes ≠ [])
    (hbad : (r.bytes.length < 10 ∧ ∀ b ∈ r.bytes, b &&& 0x80 ≠ 0) ∨
      (10 ≤ r.bytes.length ∧ ∀ b ∈ r.bytes.take 10, b &&& 0x80 ≠ 0)) :
    Unmarshal d (r :: rest) = .ret ⟨NewMetrics, [], []⟩ (some .errInvalidOtelFormatStart) := by
  have h0 : DecodeVarint r.bytes = (0, 0) := by
    apply DecodeVarint_continued
    rcases hbad with ⟨_, hall⟩ | ⟨_, hall⟩
    · intro b hb; exact hall b (List.mem_of_mem_take hb)
    · exact hall
  unfold Unmarshal
  rw [records_cons, frames_bad_start d 0 r _ hne (by rw [h0])]

theorem Unmarshal_bad_varint_witness :
    ffRecord.bytes = [0xFF, 0xFF, 0xFF, 0xFF, 0xFF] ∧
      ∀ (d : Deserializer) (rest : List Record),
        Unmarshal d (ffRecord :: rest) =
          .ret ⟨NewMetrics, [], []⟩ (some .errInvalidOtelFormatStart) :=
  ⟨rfl, fun d rest =>
    Unmarshal_bad_varint d ffRecord rest (by decide) (Or.inl (by decide))⟩

/-! ### The type identifier -/

/-- C13: `Type()` returns the fixed identifier `otel_v1`, the value of `TypeStr`, for every
Unmarshaler, whatever its logger holds. -/
theorem Unmarshaler_Type (u : Unmarshaler) :
    u.Type = "otel_v1" ∧ u.Type = TypeStr ∧ (NewUnmarshaler u.logger).Type = "otel_v1" :=
  ⟨rfl, rfl, rfl⟩

/-! ### One iteration of the inner loop, in exact arithmetic -/

theorem frames_step (d : Deserializer) (i : Nat) (r : Record) (fuel : Nat) (pos : Int) (st : St)
    (payload : List Nat) (h : pos < r.len) (hf : ¬ ((DecodeVarint r.bytes).2 = 0 ∧ pos = 0))
    (hs : r.slice (wrapInt (pos + ((DecodeVarint r.bytes).2 : Nat)))
        (wrapInt (wrapInt (pos + ((DecodeVarint r.bytes).2 : Nat)) +
          wrapInt ((DecodeVarint r.bytes).1 : Nat))) = some payload) :
    Unmarshal.frames d i r (fuel + 1) pos st =
      Unmarshal.frames d i r fuel
        (wrapInt (pos + wrapInt (wrapInt ((DecodeVarint r.bytes).1 : Nat) +
          ((DecodeVarint r.bytes).2 : Nat))))
        (St.frame d i payload st) := by
  rw [Unmarshal.frames, if_pos h]
  dsimp only
  rw [if_neg hf, hs]
  dsimp only
  unfold St.frame
  cases hd : d payload with
  | error e => rfl
  | ok req =>
    dsimp only
    by_cases hv : isValid req = false
    · rw [if_pos hv, if_pos hv]
    · rw [if_neg hv, if_neg hv]

theorem St.frame_calls (d : Deserializer) (i : Nat) (payload : List Nat) (st : St) :
    (St.frame d i payload st).calls = st.calls ++ [(i, payload)] := by
  unfold St.frame
  cases d payload with
  | error e => rfl
  | ok req => dsimp only; split <;> rfl

theorem slice_exact (r : Record) (pos : Int) (n nLen : Nat) (payload : List Nat)
    (hpos : 0 ≤ pos) (hlt : pos < 9223372036854775808) (h10 : nLen ≤ 10)
    (hn : n < 18446744073709551616)
    (hs : r.slice (wrapInt (pos + nLen)) (wrapInt (wrapInt (pos + nLen) + wrapInt n)) =
      some payload) :
    wrapInt (pos + nLen) = pos + nLen ∧
      wrapInt (wrapInt (pos + nLen) + wrapInt n) = pos + nLen + n ∧
      wrapInt (pos + wrapInt (wrapInt n + nLen)) = pos + nLen + n ∧
      pos + nLen + n ≤ r.cap ∧ pos + nLen + n < 9223372036854775808 := by
  obtain ⟨hlo, hhi, hcap⟩ := slice_some r _ _ payload hs
  have e1 : wrapInt (pos + nLen) = pos + nLen := by
    unfold wrapInt at hlo ⊢; omega
  rw [e1] at hhi hcap
  have e2 : wrapInt (pos + nLen + wrapInt n) = pos + nLen + n := by
    unfold wrapInt at hhi ⊢; omega
  have e3 : wrapInt (pos + wrapInt (wrapInt n + nLen)) = pos + nLen + n := by
    rw [← e2]; unfold wrapInt; omega
  rw [e2] at hcap
  refine ⟨e1, by rw [e1, e2], e3, hcap, ?_⟩
  have := wrapInt_range (pos + nLen + wrapInt n)
  rw [e2] at this
  exact this.2

theorem frames_trace (d : Deserializer) (i : Nat) (r : Record)
    (hn : (DecodeVarint r.bytes).2 ≠ 0) (fuel : Nat) :
    ∀ (pos : Int) (st : St), 0 ≤ pos → pos < 9223372036854775808 →
      ∀ st1 ∈ (Unmarshal.frames d i r fuel pos st).st,
        ∃ payloads : List (List Nat),
          st1.calls = st.calls ++ payloads.map (fun p => (i, p)) ∧
          ∀ (j : Nat) (p : List Nat), payloads[j]? = some p →
            r.slice
              (pos + ((j * ((DecodeVarint r.bytes).1 + (DecodeVarint r.bytes).2) : Nat) : Int) +
                ((DecodeVarint r.bytes).2 : Nat))
              (pos + (((j + 1) * ((DecodeVarint r.bytes).1 + (DecodeVarint r.bytes).2) : Nat) : Int))
              = some p := by
  induction fuel with
  | zero => intro pos st _ _ st1 h; rw [Unmarshal.frames] at h; simp [Step.st] at h
  | succ fuel ih =>
    intro pos st hpos hlt st1 h
    by_cases hlen : pos < r.len
    · have hf : ¬ ((DecodeVarint r.bytes).2 = 0 ∧ pos = 0) := fun hc => hn hc.1
      cases hs : r.slice (wrapInt (pos + ((DecodeVarint r.bytes).2 : Nat)))
          (wrapInt (wrapInt (pos + ((DecodeVarint r.bytes).2 : Nat)) +
            wrapInt ((DecodeVarint r.bytes).1 : Nat))) with
      | none =>
        rw [frames_fault d i r fuel pos st hlen hf hs] at h
        simp only [Step.st, Option.mem_def, Option.some.injEq] at h
        subst h
        exact ⟨[], by simp, by simp⟩
      | some payload =>
        rw [frames_step d i r fuel pos st payload hlen hf hs] at h
        obtain ⟨e1, e2, e3, _, hlt1⟩ := slice_exact r pos _ _ payload hpos hlt
          (DecodeVarint_le r.bytes) (DecodeVarint_lt r.bytes) hs
        rw [e3] at h
        obtain ⟨rest, hcalls, hslices⟩ := ih _ (St.frame d i payload st) (by omega) hlt1 st1 h
        refine ⟨payload :: rest, ?_, ?_⟩
        · rw [hcalls, St.frame_calls]; simp
        · intro j p hj
          cases j with
          | zero =>
            simp only [List.getElem?_cons_zero, Option.some.injEq] at hj
            subst hj
            rw [e2, e1] at hs
            rw [← hs]
            congr 1 <;> push_cast <;> ring
          | succ j =>
            simp only [List.getElem?_cons_succ] at hj
            rw [← hslices j p hj]
            congr 1 <;> push_cast <;> ring
    · rw [frames_done d i r fuel pos st hlen] at h
      simp only [Step.st, Option.mem_def, Option.some.injEq] at h
      subst h
      exact ⟨[], by simp, by simp⟩

/-! ### The frames of one record -/

theorem frames_record_trace (d : Deserializer) (i : Nat) (r : Record) (st : St) :
    ∀ st1 ∈ (Unmarshal.frames d i r (r.bytes.length + 1) 0 st).st,
      ∃ payloads : List (List Nat),
        st1.calls = st.calls ++ payloads.map (fun p => (i, p)) ∧
        ∀ (j : Nat) (p : List Nat), payloads[j]? = some p → r.isFrame j p := by
  intro st1 h
  by_cases hn : (DecodeVarint r.bytes).2 = 0
  · have hst : st1 = st := by
      by_cases hb : r.bytes = []
      · rw [frames_empty d i r st hb] at h
        simpa [Step.st] using h.symm
      · rw [frames_bad_start d i r st hb hn] at h
        simpa [Step.st] using h.symm
    subst hst
    exact ⟨[], by simp, by simp⟩
  · obtain ⟨payloads, hcalls, hslices⟩ :=
      frames_trace d i r hn (r.bytes.length + 1) 0 st (le_refl 0) (by decide) st1 h
    refine ⟨payloads, hcalls, ?_⟩
    intro j p hj
    have := hslices j p hj
    unfold Record.isFrame
    rw [← this]
    congr 1 <;> push_cast <;> ring

theorem tagged_append (records : List Record) (i : Nat) (r : Record) (st st1 : St)
    (payloads : List (List Nat)) (hr : records[i]? = some r) (h : St.tagged records st)
    (hcalls : st1.calls = st.calls ++ payloads.map (fun p => (i, p)))
    (hslices : ∀ (j : Nat) (p : List Nat), payloads[j]? = some p → r.isFrame j p) :
    St.tagged records st1 := by
  intro c hc
  rw [hcalls] at hc
  rcases List.mem_append.mp hc with hc | hc
  · exact h c hc
  · obtain ⟨p, hp, rfl⟩ := List.mem_map.mp hc
    obtain ⟨j, hj⟩ := List.getElem?_of_mem hp
    exact ⟨r, j, hr, hslices j p hj⟩

theorem records_tagged (d : Deserializer) (full : List Record) (rs : List Record) :
    ∀ (i : Nat) (st : St), full.drop i = rs → St.tagged full st →
      ∀ st1 ∈ (Unmarshal.records d rs i st).st, St.tagged full st1 := by
  induction rs with
  | nil =>
    intro i st _ ht st1 h
    rw [records_nil] at h
    simp only [Step.st, Option.mem_def, Option.some.injEq] at h
    exact h ▸ ht
  | cons r rest ih =>
    intro i st hdrop ht st1 h
    rw [records_cons] at h
    have hr : full[i]? = some r := by
      have := List.getElem?_drop full i 0
      rw [hdrop] at this
      simpa using this.symm
    have hrest : full.drop (i + 1) = rest := by
      rw [← List.tail_drop, hdrop]; rfl
    have hf := frames_record_trace d i r st
    cases hres : Unmarshal.frames d i r (r.bytes.length + 1) 0 st with
    | next st2 =>
      rw [hres] at h hf
      obtain ⟨payloads, hcalls, hslices⟩ := hf st2 rfl
      exact ih (i + 1) st2 hrest (tagged_append full i r st st2 payloads hr ht hcalls hslices)
        st1 h
    | fatal st2 =>
      rw [hres] at h hf
      obtain ⟨payloads, hcalls, hslices⟩ := hf st1 h
      exact tagged_append full i r st st1 payloads hr ht hcalls hslices
    | fault st2 =>
      rw [hres] at h hf
      obtain ⟨payloads, hcalls, hslices⟩ := hf st1 h
      exact tagged_append full i r st st1 payloads hr ht hcalls hslices
    | timeout => rw [hres] at h; simp [Step.st] at h

theorem Unmarshal_records_st (d : Deserializer) (records : List Record) :
    ∃ st, (Unmarshal.records d records 0 ⟨NewMetrics, [], []⟩).st = some st ∧
      (Unmarshal d records).calls = st.calls ∧
      ∀ st1 err, Unmarshal d records = .ret st1 err → st1 = st := by
  have hnt := records_ne_timeout d records 0 ⟨NewMetrics, [], []⟩
  unfold Unmarshal
  cases h1 : Unmarshal.records d records 0 ⟨NewMetrics, [], []⟩ with
  | next st =>
    refine ⟨st, rfl, ?_, ?_⟩
    · dsimp only; split <;> rfl
    · intro st1 err h
      dsimp only at h
      split at h <;> simp only [Result.ret.injEq] at h <;> exact h.1.symm
  | fatal st =>
    refine ⟨st, rfl, rfl, ?_⟩
    intro st1 err h
    simp only [Result.ret.injEq] at h
    exact h.1.symm
  | fault st =>
    refine ⟨st, rfl, rfl, ?_⟩
    intro st1 err h
    cases h
  | timeout => exact absurd h1 hnt

theorem Unmarshal_tagged (d : Deserializer) (records : List Record) :
    ∀ c ∈ (Unmarshal d records).calls, ∃ r j, records[c.1]? = some r ∧ r.isFrame j c.2 := by
  obtain ⟨st, hst, hcalls, _⟩ := Unmarshal_records_st d records
  rw [hcalls]
  exact records_tagged d records records 0 ⟨NewMetrics, [], []⟩ rfl
    (fun c hc => by simp at hc) st hst

/-! ### The diagnostic events -/

theorem frames_log (d : Deserializer) (i : Nat) (r : Record) (fuel : Nat) :
    ∀ (pos : Int) (st : St), st.log = st.calls.filterMap (frameEvent d) →
      ∀ st1 ∈ (Unmarshal.frames d i r fuel pos st).st,
        st1.log = st1.calls.filterMap (frameEvent d) :=
  frames_preserves d i r (fun st => st.log = st.calls.filterMap (frameEvent d))
    (fun st p e h hd => by
      simp only [List.filterMap_append, List.filterMap_cons, List.filterMap_nil, frameEvent, hd]
      rw [h])
    (fun st p req h hd hv => by
      simp only [List.filterMap_append, List.filterMap_cons, List.filterMap_nil, frameEvent, hd,
        hv, if_true]
      rw [h])
    (fun st p req h hd hv => by
      simp only [List.filterMap_append, List.filterMap_cons, List.filterMap_nil, frameEvent, hd,
        hv]
      simpa using h) fuel

theorem records_log (d : Deserializer) (records : List Record) :
    ∀ (i : Nat) (st : St), st.log = st.calls.filterMap (frameEvent d) →
      ∀ st1 ∈ (Unmarshal.records d records i st).st,
        st1.log = st1.calls.filterMap (frameEvent d) := by
  induction records with
  | nil =>
    intro i st hl st1 h
    rw [records_nil] at h
    simp only [Step.st, Option.mem_def, Option.some.injEq] at h
    exact h ▸ hl
  | cons r rest ih =>
    intro i st hl st1 h
    rw [records_cons] at h
    have hf := frames_log d i r (r.bytes.length + 1) 0 st hl
    cases hres : Unmarshal.frames d i r (r.bytes.length + 1) 0 st with
    | next st2 => rw [hres] at h hf; exact ih _ _ (hf st2 rfl) st1 h
    | fatal st2 => rw [hres] at h hf; exact hf st1 h
    | fault st2 => rw [hres] at h hf; exact hf st1 h
    | timeout => rw [hres] at h; simp [Step.st] at h

/-- C12: when `Unmarshal` returns, the log is exactly, in processing order, one event per visited
frame that was skipped: "Unable to unmarshal input" (with the error) for a frame that failed
deserialization, "Invalid metric" for a frame that failed `isValid`, and no event for a merged
frame or for the framing error. Each event carries the record index of its frame, and that index
is the position in the batch of the record the payload was sliced from. -/
theorem Unmarshal_log (d : Deserializer) (records : List Record) (st : St) (err : Option Err)
    (h : Unmarshal d records = .ret st err) :
    st.log =
        st.calls.filterMap (fun c =>
          match d c.2 with
          | .error e => some ⟨"Unable to unmarshal input", some e, c.1⟩
          | .ok req => if isValid req = false then some ⟨"Invalid metric", none, c.1⟩ else none) ∧
      (∀ c ∈ st.calls, ∃ r j, records[c.1]? = some r ∧ r.isFrame j c.2) ∧
      (st.calls.map Prod.fst).Pairwise (· ≤ ·) := by
  obtain ⟨st0, hst0, _, hret⟩ := Unmarshal_records_st d records
  have hst : st = st0 := hret st err h
  subst hst
  refine ⟨?_, ?_, (Unmarshal_ret_inOrder d records st err h).1⟩
  · exact records_log d records 0 ⟨NewMetrics, [], []⟩ rfl st hst0
  · have ht := Unmarshal_tagged d records
    rw [h] at ht
    exact ht

theorem Unmarshal_log_witness :
    Unmarshal sampleProto sampleRecords = .ret sampleSt none ∧
      (sampleSt.log =
          sampleSt.calls.filterMap (fun c =>
            match sampleProto c.2 with
            | .error e => some ⟨"Unable to unmarshal input", some e, c.1⟩
            | .ok req =>
              if isValid req = false then some ⟨"Invalid metric", none, c.1⟩ else none) ∧
        (∀ c ∈ sampleSt.calls, ∃ r j, sampleRecords[c.1]? = some r ∧ r.isFrame j c.2) ∧
        (sampleSt.calls.map Prod.fst).Pairwise (· ≤ ·)) :=
  ⟨by decide, Unmarshal_log sampleProto sampleRecords sampleSt none (by decide)⟩

/-! ### Framing and the nested deserializer -/

/-- C15: framing does not depend on the nested deserializer: for any two deserializers the calls
made (record index and payload, in order) are the same and the call faults under one exactly when
it faults under the other; each payload is the slice `record[j*(n+nLen)+nLen : (j+1)*(n+nLen)]` of
its record for some `j`, a byte range fixed by the varint at offset 0 of the record alone. -/
theorem Unmarshal_framing (d d1 : Deserializer) (records : List Record) :
    (Unmarshal d records).calls = (Unmarshal d1 records).calls ∧
      (Unmarshal d records).faulted = (Unmarshal d1 records).faulted ∧
      ∀ c ∈ (Unmarshal d records).calls, ∃ r j, records[c.1]? = some r ∧
        r.slice
          ((j * ((DecodeVarint r.bytes).1 + (DecodeVarint r.bytes).2) +
            (DecodeVarint r.bytes).2 : Nat) : Int)
          (((j + 1) * ((DecodeVarint r.bytes).1 + (DecodeVarint r.bytes).2) : Nat) : Int) =
            some c.2 :=
  ⟨Unmarshal_sameCalls d d1 records, Unmarshal_sameFault d d1 records, Unmarshal_tagged d records⟩

/-! ### Termination -/

theorem frames_calls_le (d : Deserializer) (i : Nat) (r : Record) (fuel : Nat) :
    ∀ (pos : Int) (st : St), ∀ st1 ∈ (Unmarshal.frames d i r fuel pos st).st,
      st1.calls.length + 1 ≤ st.calls.length + fuel := by
  induction fuel with
  | zero => intro pos st st1 h; rw [Unmarshal.frames] at h; simp [Step.st] at h
  | succ fuel ih =>
    intro pos st st1 h
    by_cases hlen : pos < r.len
    · by_cases hf : (DecodeVarint r.bytes).2 = 0 ∧ pos = 0
      · rw [frames_fatal d i r fuel pos st hlen hf.1 hf.2] at h
        simp only [Step.st, Option.mem_def, Option.some.injEq] at h
        subst h; omega
      · cases hs : r.slice (wrapInt (pos + ((DecodeVarint r.bytes).2 : Nat)))
            (wrapInt (wrapInt (pos + ((DecodeVarint r.bytes).2 : Nat)) +
              wrapInt ((DecodeVarint r.bytes).1 : Nat))) with
        | none =>
          rw [frames_fault d i r fuel pos st hlen hf hs] at h
          simp only [Step.st, Option.mem_def, Option.some.injEq] at h
          subst h; omega
        | some payload =>
          rw [frames_step d i r fuel pos st payload hlen hf hs] at h
          have := ih _ _ st1 h
          rw [St.frame_calls, List.length_append] at this
          simp only [List.length_singleton] at this
          omega
    · rw [frames_done d i r fuel pos st hlen] at h
      simp only [Step.st, Option.mem_def, Option.some.injEq] at h
      subst h; omega

theorem records_calls_le (d : Deserializer) (records : List Record) :
    ∀ (i : Nat) (st : St), ∀ st1 ∈ (Unmarshal.records d records i st).st,
      st1.calls.length ≤ st.calls.length + (records.map (fun r => r.bytes.length)).sum := by
  induction records with
  | nil =>
    intro i st st1 h
    rw [records_nil] at h
    simp only [Step.st, Option.mem_def, Option.some.injEq] at h
    subst h; simp
  | cons r rest ih =>
    intro i st st1 h
    rw [records_cons] at h
    have hf := frames_calls_le d i r (r.bytes.length + 1) 0 st
    simp only [List.map_cons, List.sum_cons]
    cases hres : Unmarshal.frames d i r (r.bytes.length + 1) 0 st with
    | next st2 =>
      rw [hres] at h hf
      have h1 := hf st2 rfl
      have h2 := ih _ _ st1 h
      omega
    | fatal st2 => rw [hres] at h hf; have := hf st1 h; omega
    | fault st2 => rw [hres] at h hf; have := hf st1 h; omega
    | timeout => rw [hres] at h; simp [Step.st] at h

/-- C14: `Unmarshal` terminates on every input: the call returns or faults, it never exhausts
the `len(record) + 1` iterations granted per record. Every iteration that neither returns the
framing error nor faults moves the cursor from `pos` to `pos + nLen + n` in exact arithmetic, with
`nLen ≥ 1` (the varint is the same in every iteration and a zero-byte decode has left the loop at
`pos = 0`), so the cursor strictly increases; at most `len(record)` frames are visited per record.
The declared length is arbitrary: 0 is allowed, and a length that does not fit the signed integer
makes the slice fault, which ends the call. -/
theorem Unmarshal_terminates (d : Deserializer) (records : List Record) :
    Unmarshal d records ≠ .timeout ∧
    (Unmarshal d records).calls.length ≤ (records.map (fun r => r.bytes.length)).sum ∧
    (∀ (i : Nat) (r : Record) (st : St),
      Unmarshal.frames d i r (r.bytes.length + 1) 0 st ≠ .timeout ∧
      ∀ st1 ∈ (Unmarshal.frames d i r (r.bytes.length + 1) 0 st).st,
        st1.calls.length ≤ st.calls.length + r.bytes.length) ∧
    (∀ (i : Nat) (r : Record) (fuel : Nat) (pos : Int) (st : St) (payload : List Nat),
      0 ≤ pos → pos < 9223372036854775808 → (pos = 0 ∨ (DecodeVarint r.bytes).2 ≠ 0) →
      pos < r.len → ¬ ((DecodeVarint r.bytes).2 = 0 ∧ pos = 0) →
      r.slice (wrapInt (pos + ((DecodeVarint r.bytes).2 : Nat)))
        (wrapInt (wrapInt (pos + ((DecodeVarint r.bytes).2 : Nat)) +
          wrapInt ((DecodeVarint r.bytes).1 : Nat))) = some payload →
      Unmarshal.frames d i r (fuel + 1) pos st =
          Unmarshal.frames d i r fuel
            (pos + ((DecodeVarint r.bytes).2 : Nat) + ((DecodeVarint r.bytes).1 : Nat))
            (St.frame d i payload st) ∧
        1 ≤ (DecodeVarint r.bytes).2 ∧
        pos < pos + ((DecodeVarint r.bytes).2 : Nat) + ((DecodeVarint r.bytes).1 : Nat) ∧
        (DecodeVarint r.bytes).1 < 9223372036854775808) := by
  refine ⟨Unmarshal_ne_timeout d records, ?_, ?_, ?_⟩
  · obtain ⟨st, hst, hcalls, _⟩ := Unmarshal_records_st d records
    rw [hcalls]
    have := records_calls_le d records 0 ⟨NewMetrics, [], []⟩ st hst
    simpa using this
  · intro i r st
    refine ⟨frames_ne_timeout d i r (r.bytes.length + 1) 0 st (le_refl 0) (by decide)
      (Or.inl rfl) (by omega) (by simp [Record.len]), ?_⟩
    intro st1 h
    have := frames_calls_le d i r (r.bytes.length + 1) 0 st st1 h
    omega
  · intro i r fuel pos st payload hpos hlt hreach hlen hf hs
    obtain ⟨e1, e2, e3, _, hlt1⟩ := slice_exact r pos _ _ payload hpos hlt
      (DecodeVarint_le r.bytes) (DecodeVarint_lt r.bytes) hs
    have h1 : (DecodeVarint r.bytes).2 ≠ 0 := by
      rcases hreach with h0 | h0
      · intro hc; exact hf ⟨hc, h0⟩
      · exact h0
    refine ⟨?_, by omega, by omega, by omega⟩
    rw [frames_step d i r fuel pos st payload hlen hf hs, e3]

/-! ### Batches are processed record after record -/

theorem St.frame_md_rel (R : Metrics → Metrics → Prop)
    (hR : ∀ a b es, R a b → R (MoveAndAppendTo es a) (MoveAndAppendTo es b))
    (d : Deserializer) (i j : Nat) (p : List Nat) (st st1 : St) (h : R st.md st1.md) :
    R (St.frame d i p st).md (St.frame d j p st1).md := by
  unfold St.frame
  cases d p with
  | error e => exact h
  | ok req =>
    dsimp only
    by_cases hv : isValid req = false
    · rw [if_pos hv, if_pos hv]; exact h
    · rw [if_neg hv, if_neg hv]; exact hR _ _ _ h

theorem frames_rel (R : Metrics → Metrics → Prop)
    (hR : ∀ a b es, R a b → R (MoveAndAppendTo es a) (MoveAndAppendTo es b))
    (d : Deserializer) (i j : Nat) (r : Record) (fuel : Nat) :
    ∀ (pos : Int) (st st1 : St), R st.md st1.md →
      Step.rel R (Unmarshal.frames d i r fuel pos st) (Unmarshal.frames d j r fuel pos st1) := by
  induction fuel with
  | zero => intro pos st st1 _; rw [Unmarshal.frames, Unmarshal.frames]; trivial
  | succ fuel ih =>
    intro pos st st1 h
    by_cases hlen : pos < r.len
    · by_cases hf : (DecodeVarint r.bytes).2 = 0 ∧ pos = 0
      · rw [frames_fatal d i r fuel pos st hlen hf.1 hf.2,
          frames_fatal d j r fuel pos st1 hlen hf.1 hf.2]
        exact h
      · cases hs : r.slice (wrapInt (pos + ((DecodeVarint r.bytes).2 : Nat)))
            (wrapInt (wrapInt (pos + ((DecodeVarint r.bytes).2 : Nat)) +
              wrapInt ((DecodeVarint r.bytes).1 : Nat))) with
        | none =>
          rw [frames_fault d i r fuel pos st hlen hf hs,
            frames_fault d j r fuel pos st1 hlen hf hs]
          trivial
        | some payload =>
          rw [frames_step d i r fuel pos st payload hlen hf hs,
            frames_step d j r fuel pos st1 payload hlen hf hs]
          exact ih _ _ _ (St.frame_md_rel R hR d i j payload st st1 h)
    · rw [frames_done d i r fuel pos st hlen, frames_done d j r fuel pos st1 hlen]
      exact h

theorem records_rel (R : Metrics → Metrics → Prop)
    (hR : ∀ a b es, R a b → R (MoveAndAppendTo es a) (MoveAndAppendTo es b))
    (d : Deserializer) (records : List Record) :
    ∀ (i j : Nat) (st st1 : St), R st.md st1.md →
      Step.rel R (Unmarshal.records d records i st) (Unmarshal.records d records j st1) := by
  induction records with
  | nil => intro i j st st1 h; rw [records_nil, records_nil]; exact h
  | cons r rest ih =>
    intro i j st st1 h
    rw [records_cons, records_cons]
    have hf := frames_rel R hR d i j r (r.bytes.length + 1) 0 st st1 h
    cases h1 : Unmarshal.frames d i r (r.bytes.length + 1) 0 st <;>
      cases h2 : Unmarshal.frames d j r (r.bytes.length + 1) 0 st1 <;>
      rw [h1, h2] at hf <;> first
        | exact ih _ _ _ _ hf
        | exact hf
        | exact False.elim hf

theorem Unmarshal_of_next (d : Deserializer) (records : List Record) (st : St)
    (h : Unmarshal.records d records 0 ⟨NewMetrics, [], []⟩ = .next st) :
    Unmarshal d records =
      .ret st (if st.md.MetricCount = 0 then some .errInvalidRecords else none) := by
  unfold Unmarshal
  rw [h]
  dsimp only
  split <;> rfl

theorem Unmarshal_of_fatal (d : Deserializer) (records : List Record) (st : St)
    (h : Unmarshal.records d records 0 ⟨NewMetrics, [], []⟩ = .fatal st) :
    Unmarshal d records = .ret st (some .errInvalidOtelFormatStart) := by
  unfold Unmarshal
  rw [h]

theorem Unmarshal_of_fault (d : Deserializer) (records : List Record) (st : St)
    (h : Unmarshal.records d records 0 ⟨NewMetrics, [], []⟩ = .fault st) :
    Unmarshal d records = .fault st := by
  unfold Unmarshal
  rw [h]

theorem records_append_rel (d : Deserializer) (A B : List Record) (stA : St)
    (h : Unmarshal.records d A 0 ⟨NewMetrics, [], []⟩ = .next stA) :
    Unmarshal.records d (A ++ B) 0 ⟨NewMetrics, [], []⟩ =
        Unmarshal.records d B (0 + A.length) stA ∧
      Step.rel (fun m1 m2 => m1.ResourceMetrics = stA.md.ResourceMetrics ++ m2.ResourceMetrics)
        (Unmarshal.records d B (0 + A.length) stA)
        (Unmarshal.records d B 0 ⟨NewMetrics, [], []⟩) := by
  refine ⟨by rw [records_append, h], ?_⟩
  apply records_rel
  · intro a b es hab
    simp only [MoveAndAppendTo, hab, List.append_assoc]
  · simp [NewMetrics]

theorem ret_if_ne_fatal (st st1 : St) (c : Prop) [Decidable c] :
    Result.ret st (if c then some Err.errInvalidRecords else none) ≠
      Result.ret st1 (some Err.errInvalidOtelFormatStart) := by
  split <;> simp

/-- C16: records are processed one after the other. When `Unmarshal` on `A` returns without the
framing error, `Unmarshal` on `A ++ B` returns exactly when `Unmarshal` on `B` returns, its
resource groups are those returned for `A` followed by those returned for `B`, and it returns the
framing error exactly when the call on `B` does. When `Unmarshal` on `A` returns the framing
error, `Unmarshal` on `A ++ B` returns the same batch and error. -/
theorem Unmarshal_append (d : Deserializer) (A B : List Record) (stA : St) (eA : Option Err)
    (h : Unmarshal d A = .ret stA eA) :
    (eA = some .errInvalidOtelFormatStart → Unmarshal d (A ++ B) = .ret stA eA) ∧
    (eA ≠ some .errInvalidOtelFormatStart →
      ((∃ st, Unmarshal d (A ++ B) = .ret st (some .errInvalidOtelFormatStart)) ↔
        (∃ st, Unmarshal d B = .ret st (some .errInvalidOtelFormatStart))) ∧
      (∀ stB eB, Unmarshal d B = .ret stB eB →
        ∃ st e, Unmarshal d (A ++ B) = .ret st e ∧
          st.md.ResourceMetrics = stA.md.ResourceMetrics ++ stB.md.ResourceMetrics) ∧
      (∀ st e, Unmarshal d (A ++ B) = .ret st e →
        ∃ stB eB, Unmarshal d B = .ret stB eB ∧
          st.md.ResourceMetrics = stA.md.ResourceMetrics ++ stB.md.ResourceMetrics)) := by
  rcases Unmarshal_ret_records d A stA eA h with ⟨h1, he⟩ | ⟨h1, he⟩
  · refine ⟨fun hfatal => ?_, fun _ => ?_⟩
    · rw [hfatal] at he
      split at he <;> simp at he
    · obtain ⟨heq, hrel⟩ := records_append_rel d A B stA h1
      cases hX : Unmarshal.records d B (0 + A.length) stA <;>
        cases hB : Unmarshal.records d B 0 ⟨NewMetrics, [], []⟩ <;>
        rw [hX, hB] at hrel <;> try exact False.elim hrel
      · rename_i sX sB
        have uAB := Unmarshal_of_next d (A ++ B) sX (heq.trans hX)
        have uB := Unmarshal_of_next d B sB hB
        have hg : sX.md.ResourceMetrics = stA.md.ResourceMetrics ++ sB.md.ResourceMetrics := hrel
        refine ⟨?_, ?_, ?_⟩
        · constructor
          · rintro ⟨st, hst⟩; rw [uAB] at hst; exact absurd hst (ret_if_ne_fatal _ _ _)
          · rintro ⟨st, hst⟩; rw [uB] at hst; exact absurd hst (ret_if_ne_fatal _ _ _)
        · intro stB eB hret
          rw [uB] at hret
          simp only [Result.ret.injEq] at hret
          exact ⟨sX, _, uAB, by rw [← hret.1]; exact hg⟩
        · intro st e hret
          rw [uAB] at hret
          simp only [Result.ret.injEq] at hret
          exact ⟨sB, _, uB, by rw [← hret.1]; exact hg⟩
      · rename_i sX sB
        have uAB := Unmarshal_of_fatal d (A ++ B) sX (heq.trans hX)
        have uB := Unmarshal_of_fatal d B sB hB
        have hg : sX.md.ResourceMetrics = stA.md.ResourceMetrics ++ sB.md.ResourceMetrics := hrel
        refine ⟨⟨fun _ => ⟨sB, uB⟩, fun _ => ⟨sX, uAB⟩⟩, ?_, ?_⟩
        · intro stB eB hret
          rw [uB] at hret
          simp only [Result.ret.injEq] at hret
          exact ⟨sX, _, uAB, by rw [← hret.1]; exact hg⟩
        · intro st e hret
          rw [uAB] at hret
          simp only [Result.ret.injEq] at hret
          exact ⟨sB, _, uB, by rw [← hret.1]; exact hg⟩
      · rename_i sX sB
        have uAB := Unmarshal_of_fault d (A ++ B) sX (heq.trans hX)
        have uB := Unmarshal_of_fault d B sB hB
        refine ⟨?_, ?_, ?_⟩
        · constructor
          · rintro ⟨st, hst⟩; rw [uAB] at hst; cases hst
          · rintro ⟨st, hst⟩; rw [uB] at hst; cases hst
        · intro stB eB hret; rw [uB] at hret; cases hret
        · intro st e hret; rw [uAB] at hret; cases hret
      · exact absurd hB (records_ne_timeout d B 0 _)
  · refine ⟨fun _ => ?_, fun hne => absurd he hne⟩
    rw [he]
    apply Unmarshal_of_fatal
    rw [records_append, h1]

theorem Unmarshal_append_witness :
    Unmarshal sampleProto sampleRecords = .ret sampleSt none ∧
      ((none = some Err.errInvalidOtelFormatStart →
          Unmarshal sampleProto (sampleRecords ++ [⟨[1, 7], []⟩]) = .ret sampleSt none) ∧
        ((none : Option Err) ≠ some .errInvalidOtelFormatStart →
          ((∃ st, Unmarshal sampleProto (sampleRecords ++ [⟨[1, 7], []⟩]) =
              .ret st (some .errInvalidOtelFormatStart)) ↔
            (∃ st, Unmarshal sampleProto [⟨[1, 7], []⟩] =
              .ret st (some .errInvalidOtelFormatStart))) ∧
          (∀ stB eB, Unmarshal sampleProto [⟨[1, 7], []⟩] = .ret stB eB →
            ∃ st e, Unmarshal sampleProto (sampleRecords ++ [⟨[1, 7], []⟩]) = .ret st e ∧
              st.md.ResourceMetrics =
                sampleSt.md.ResourceMetrics ++ stB.md.ResourceMetrics) ∧
          (∀ st e, Unmarshal sampleProto (sampleRecords ++ [⟨[1, 7], []⟩]) = .ret st e →
            ∃ stB eB, Unmarshal sampleProto [⟨[1, 7], []⟩] = .ret stB eB ∧
              st.md.ResourceMetrics =
                sampleSt.md.ResourceMetrics ++ stB.md.ResourceMetrics))) :=
  ⟨by decide, Unmarshal_append sampleProto sampleRecords [⟨[1, 7], []⟩] sampleSt none (by decide)⟩

/-! ### The varint round trip -/

theorem and_low_bits (y : Nat) (h : y < 128) : y &&& 0x7F = y ∧ y &&& 0x80 = 0 := by
  have key : ∀ z, z < 128 → z &&& 0x7F = z ∧ z &&& 0x80 = 0 := by decide
  exact key y h

theorem continuation_byte (y : Nat) :
    (0x80 ||| (y &&& 0x7F)) &&& 0x7F = y % 128 ∧ (0x80 ||| (y &&& 0x7F)) &&& 0x80 ≠ 0 := by
  have hmod : y &&& 0x7F = y % 128 := Nat.and_pow_two_sub_one_eq_mod y 7
  have key : ∀ z, z < 128 → (0x80 ||| z) &&& 0x7F = z ∧ (0x80 ||| z) &&& 0x80 ≠ 0 := by decide
  rw [hmod]
  exact key (y % 128) (Nat.mod_lt _ (by decide))

theorem or_shift (acc z shift : Nat) (hacc : acc < 2 ^ shift)
    (hz : z * 2 ^ shift < 18446744073709551616) :
    acc ||| ((z <<< shift) % 18446744073709551616) = acc + z * 2 ^ shift := by
  rw [Nat.shiftLeft_eq, Nat.mod_eq_of_lt hz, Nat.or_comm, Nat.mul_comm z,
    ← Nat.mul_add_lt_is_or hacc z, Nat.add_comm]

theorem EncodeVarint_loop_length (fuel : Nat) :
    ∀ y, 1 ≤ (EncodeVarint.loop fuel y).length ∧ (EncodeVarint.loop fuel y).length ≤ fuel + 1 := by
  induction fuel with
  | zero => intro y; simp [EncodeVarint.loop]
  | succ fuel ih =>
    intro y
    unfold EncodeVarint.loop
    split
    · have := ih (y >>> 7)
      simp only [List.length_cons]
      omega
    · simp

theorem DecodeVarint_loop_Encode (fuel : Nat) :
    ∀ (y shift acc n : Nat) (tail : List Nat), shift + 7 * fuel = 63 →
      y * 2 ^ shift < 18446744073709551616 → acc < 2 ^ shift →
      DecodeVarint.loop (EncodeVarint.loop fuel y ++ tail) shift acc n =
        (acc + y * 2 ^ shift, n + (EncodeVarint.loop fuel y).length) := by
  have last : ∀ (y shift acc n : Nat) (tail : List Nat), shift < 64 → y < 128 →
      y * 2 ^ shift < 18446744073709551616 → acc < 2 ^ shift →
      DecodeVarint.loop ([y] ++ tail) shift acc n = (acc + y * 2 ^ shift, n + [y].length) := by
    intro y shift acc n tail hs hy hlt hacc
    obtain ⟨h7, h8⟩ := and_low_bits y hy
    rw [List.singleton_append, DecodeVarint.loop, if_pos hs]
    dsimp only
    rw [if_pos h8, h7, or_shift acc y shift hacc hlt]
    rfl
  induction fuel with
  | zero =>
    intro y shift acc n tail hs hlt hacc
    have h63 : shift = 63 := by omega
    subst h63
    have hy : y < 128 := by omega
    exact last y 63 acc n tail (by decide) hy hlt hacc
  | succ fuel ih =>
    intro y shift acc n tail hs hlt hacc
    have hshift : shift < 64 := by omega
    unfold EncodeVarint.loop
    split
    · rename_i hbig
      obtain ⟨h7, h8⟩ := continuation_byte y
      rw [List.cons_append, DecodeVarint.loop, if_pos hshift]
      dsimp only
      rw [if_neg h8, h7]
      have hpow : (2 : Nat) ^ (shift + 7) = 2 ^ shift * 128 := by rw [pow_add]; norm_num
      have hdiv : y >>> 7 = y / 128 := by rw [Nat.shiftRight_eq_div_pow]
      have hsplit : y = y % 128 + 128 * (y / 128) := (Nat.mod_add_div y 128).symm
      have hlow : y % 128 * 2 ^ shift < 18446744073709551616 := by
        have : y % 128 ≤ y := Nat.mod_le y 128
        exact lt_of_le_of_lt (Nat.mul_le_mul_right _ this) hlt
      have hmod : y % 128 < 128 := Nat.mod_lt _ (by decide)
      have hacc1 : acc + y % 128 * 2 ^ shift < 2 ^ (shift + 7) := by
        rw [hpow]
        have : y % 128 * 2 ^ shift ≤ 127 * 2 ^ shift := Nat.mul_le_mul_right _ (by omega)
        omega
      have hval : acc + y % 128 * 2 ^ shift + y / 128 * 2 ^ (shift + 7) = acc + y * 2 ^ shift := by
        rw [hpow]
        conv_rhs => rw [hsplit]
        ring
      have hhigh : y / 128 * 2 ^ (shift + 7) < 18446744073709551616 := by
        have : y / 128 * 2 ^ (shift + 7) ≤ y * 2 ^ shift := by
          have h := hval
          omega
        omega
      rw [or_shift acc (y % 128) shift hacc hlow, hdiv,
        ih (y / 128) (shift + 7) _ (n + 1) tail (by omega) hhigh hacc1, hval]
      simp only [List.length_cons, Prod.mk.injEq, true_and]
      omega
    · rename_i hsmall
      exact last y shift acc n tail hshift (by omega) hlt hacc

theorem DecodeVarint_Encode (x : Nat) (tail : List Nat) (hx : x < 18446744073709551616) :
    DecodeVarint (EncodeVarint x ++ tail) = (x, (EncodeVarint x).length) := by
  have := DecodeVarint_loop_Encode 9 x 0 0 0 tail (by decide) (by simpa using hx) (by decide)
  simpa [DecodeVarint, EncodeVarint] using this

theorem EncodeVarint_length (x : Nat) :
    1 ≤ (EncodeVarint x).length ∧ (EncodeVarint x).length ≤ 10 :=
  EncodeVarint_loop_length 9 x

theorem EncodeVarint_inj (x y : Nat) (hx : x < 18446744073709551616)
    (hy : y < 18446744073709551616) (h : EncodeVarint x = EncodeVarint y) : x = y := by
  have h1 := DecodeVarint_Encode x [] hx
  have h2 := DecodeVarint_Encode y [] hy
  rw [h] at h1
  rw [h1] at h2
  exact (Prod.mk.inj h2).1

theorem EncodeVarint_example : EncodeVarint 300 = [0xAC, 0x02] ∧ EncodeVarint 0 = [0] ∧
    EncodeVarint 18446744073709551615 =
      [0xFF, 0xFF, 0xFF, 0xFF, 0xFF, 0xFF, 0xFF, 0xFF, 0xFF, 0x01] := by decide

/-! ### Records of back-to-back frames with one and the same length prefix -/

theorem slice_mid (r : Record) (pre v p rest : List Nat)
    (h : r.bytes = pre ++ ((v ++ p) ++ rest)) :
    r.slice ((pre.length + v.length : Nat) : Int) ((pre.length + v.length + p.length : Nat) : Int)
      = some p := by
  unfold Record.slice Record.cap
  have hlen : r.bytes.length = pre.length + (v.length + p.length + rest.length) := by
    rw [h]; simp only [List.length_append]
  rw [if_pos (by omega)]
  have e1 : ((pre.length + v.length : Nat) : Int).toNat = (pre ++ v).length := by
    rw [Int.toNat_ofNat, List.length_append]
  have e2 : (((pre.length + v.length + p.length : Nat) : Int) -
      ((pre.length + v.length : Nat) : Int)).toNat = p.length := by omega
  rw [e1, e2, h]
  have : pre ++ (v ++ p ++ rest) ++ r.spare = (pre ++ v) ++ (p ++ (rest ++ r.spare)) := by
    simp only [List.append_assoc]
  rw [this, List.drop_left, List.take_left]

theorem wrap_small (pos nLen n : Nat) (h : pos + nLen + n < 9223372036854775808) :
    wrapInt ((pos : Int) + (nLen : Nat)) = ((pos + nLen : Nat) : Int) ∧
      wrapInt (((pos + nLen : Nat) : Int) + wrapInt (n : Nat)) = ((pos + nLen + n : Nat) : Int) ∧
      wrapInt ((pos : Int) + wrapInt (wrapInt (n : Nat) + (nLen : Nat))) =
        ((pos + nLen + n : Nat) : Int) := by
  unfold wrapInt
  refine ⟨?_, ?_, ?_⟩ <;> omega

theorem frames_uniform (d : Deserializer) (i : Nat) (r : Record) (v : List Nat) (n : Nat)
    (hv : v ≠ []) (hdec : DecodeVarint r.bytes = (n, v.length))
    (hgo : r.bytes.length < 9223372036854775808) :
    ∀ (ps : List (List Nat)) (pre : List Nat) (fuel : Nat) (st : St),
      r.bytes = pre ++ (ps.map (fun p => v ++ p)).flatten → (∀ p ∈ ps, p.length = n) →
      ps.length < fuel →
      Unmarshal.frames d i r fuel (pre.length : Int) st =
        .next (ps.foldl (fun s p => St.frame d i p s) st) := by
  have h1 : (DecodeVarint r.bytes).1 = n := by rw [hdec]
  have h2 : (DecodeVarint r.bytes).2 = v.length := by rw [hdec]
  have hvlen : 1 ≤ v.length := by
    cases v with
    | nil => exact absurd rfl hv
    | cons a t => simp
  intro ps
  induction ps with
  | nil =>
    intro pre fuel st hbytes _ hfuel
    obtain ⟨k, rfl⟩ : ∃ k, fuel = k + 1 := ⟨fuel - 1, by simp at hfuel; omega⟩
    have hlen : r.bytes.length = pre.length := by rw [hbytes]; simp
    rw [frames_done d i r k _ st (by simp only [Record.len]; omega)]
    rfl
  | cons p ps ih =>
    intro pre fuel st hbytes hall hfuel
    obtain ⟨k, rfl⟩ : ∃ k, fuel = k + 1 := ⟨fuel - 1, by simp at hfuel; omega⟩
    have hp : p.length = n := hall p (List.mem_cons_self _ _)
    have hshape : r.bytes = pre ++ ((v ++ p) ++ (ps.map (fun p => v ++ p)).flatten) := by
      rw [hbytes, List.map_cons, List.flatten_cons]
    have hlen : r.bytes.length =
        pre.length + (v.length + p.length + ((ps.map (fun p => v ++ p)).flatten).length) := by
      rw [hshape]; simp only [List.length_append]
    have hsmall : pre.length + v.length + n < 9223372036854775808 := by omega
    have hpos : (pre.length : Int) < r.len := by simp only [Record.len]; omega
    have hf : ¬ ((DecodeVarint r.bytes).2 = 0 ∧ (pre.length : Int) = 0) := by
      rw [h2]; omega
    have hpre : ((pre.length + v.length + n : Nat) : Int) = ((pre ++ (v ++ p)).length : Int) := by
      simp only [List.length_append, hp]; omega
    have hfuel1 : ps.length < k := by
      simp only [List.length_cons] at hfuel; omega
    obtain ⟨w1, w2, w3⟩ := wrap_small pre.length v.length n hsmall
    have hs : r.slice (wrapInt ((pre.length : Int) + ((DecodeVarint r.bytes).2 : Nat)))
        (wrapInt (wrapInt ((pre.length : Int) + ((DecodeVarint r.bytes).2 : Nat)) +
          wrapInt ((DecodeVarint r.bytes).1 : Nat))) = some p := by
      rw [h1, h2, w1, w2, ← hp]
      exact slice_mid r pre v p _ hshape
    rw [frames_step d i r k _ st p hpos hf hs, h1, h2, w3, List.foldl_cons]
    rw [hpre]
    apply ih
    · rw [hshape]; simp only [List.append_assoc]
    · intro q hq; exact hall q (List.mem_cons_of_mem _ hq)
    · exact hfuel1

theorem foldl_frame_calls (d : Deserializer) (i : Nat) (ps : List (List Nat)) :
    ∀ st : St, (ps.foldl (fun s p => St.frame d i p s) st).calls =
      st.calls ++ ps.map (fun p => (i, p)) := by
  induction ps with
  | nil => intro st; simp
  | cons p ps ih =>
    intro st
    rw [List.foldl_cons, ih, St.frame_calls]
    simp

theorem frames_single (d : Deserializer) (i : Nat) (p spare : List Nat) (st : St)
    (hgo : (EncodeVarint p.length ++ p).length < 9223372036854775808) :
    Unmarshal.frames d i ⟨EncodeVarint p.length ++ p, spare⟩
      ((EncodeVarint p.length ++ p).length + 1) 0 st = .next (St.frame d i p st) := by
  have hlen := EncodeVarint_length p.length
  have hx : p.length < 18446744073709551616 := by
    rw [List.length_append] at hgo; omega
  have hv : EncodeVarint p.length ≠ [] := by
    intro hnil; rw [hnil] at hlen; exact absurd hlen.1 (by decide)
  have hbytes : (⟨EncodeVarint p.length ++ p, spare⟩ : Record).bytes =
      [] ++ ([p].map (fun q => EncodeVarint p.length ++ q)).flatten := by
    simp only [List.map_cons, List.map_nil, List.flatten_cons, List.flatten_nil,
      List.append_nil, List.nil_append]
  have hall : ∀ q ∈ [p], q.length = p.length := by
    intro q hq
    rw [List.mem_singleton] at hq
    rw [hq]
  have hfuel : [p].length < (EncodeVarint p.length ++ p).length + 1 := by
    rw [List.length_append, List.length_singleton]; omega
  have hrun := frames_uniform d i ⟨EncodeVarint p.length ++ p, spare⟩ (EncodeVarint p.length)
    p.length hv (DecodeVarint_Encode p.length p hx) hgo [p] []
    ((EncodeVarint p.length ++ p).length + 1) st hbytes hall hfuel
  have h0 : ((([] : List Nat).length : Nat) : Int) = 0 := rfl
  rw [h0, List.foldl_cons, List.foldl_nil] at hrun
  exact hrun

/-- C17: for a payload `p` whose single-frame record `varint(len p) ++ p` fits a Go slice (fewer
than 2^63 bytes in all, so `p` is shorter than 2^63 bytes), the varint decoded at offset 0 round
trips to `(len p, nLen)`, the slice `record[nLen : nLen + n]` is `p`, `Unmarshal` calls the nested
deserializer exactly once, on `p`, and when `p` deserializes to a sub-batch that passes `isValid`
the call returns that sub-batch's resource groups, in order, with a nil error. -/
theorem Unmarshal_single_frame (d : Deserializer) (p spare : List Nat)
    (hgo : (EncodeVarint p.length ++ p).length < 9223372036854775808) :
    DecodeVarint (EncodeVarint p.length ++ p) = (p.length, (EncodeVarint p.length).length) ∧
    Record.slice ⟨EncodeVarint p.length ++ p, spare⟩ ((EncodeVarint p.length).length : Nat)
      (((EncodeVarint p.length).length + p.length : Nat) : Int) = some p ∧
    (Unmarshal d [⟨EncodeVarint p.length ++ p, spare⟩]).calls = [(0, p)] ∧
    (∀ b : Metrics, d p = .ok b → isValid b = true →
      Unmarshal d [⟨EncodeVarint p.length ++ p, spare⟩] =
        .ret ⟨⟨b.ResourceMetrics⟩, [], [(0, p)]⟩ none) := by
  have hx : p.length < 18446744073709551616 := by
    simp only [List.length_append] at hgo; omega
  have hrec : Unmarshal.records d [⟨EncodeVarint p.length ++ p, spare⟩] 0 ⟨NewMetrics, [], []⟩ =
      .next (St.frame d 0 p ⟨NewMetrics, [], []⟩) := by
    rw [records_cons, frames_single d 0 p spare _ hgo]
    dsimp only
    rw [records_nil]
  have hU := Unmarshal_of_next d _ _ hrec
  refine ⟨DecodeVarint_Encode p.length p hx, ?_, ?_, ?_⟩
  · have := slice_mid ⟨EncodeVarint p.length ++ p, spare⟩ [] (EncodeVarint p.length) p []
      (by simp)
    simpa using this
  · rw [hU]
    simp [Result.calls, St.frame_calls]
  · intro b hd hvalid
    have hframe : St.frame d 0 p ⟨NewMetrics, [], []⟩ = ⟨⟨b.ResourceMetrics⟩, [], [(0, p)]⟩ := by
      unfold St.frame
      rw [hd]
      dsimp only
      rw [if_neg (by rw [hvalid]; decide)]
      simp [MoveAndAppendTo, NewMetrics]
    rw [hU, hframe]
    have hcount : (⟨b.ResourceMetrics⟩ : Metrics).MetricCount ≠ 0 := by
      have := ((isValid_iff b).mp hvalid).1
      simp only [Metrics.MetricCount] at this ⊢
      omega
    dsimp only
    rw [if_neg hcount]

theorem Unmarshal_single_frame_witness :
    (EncodeVarint [7].length ++ [7]).length < 9223372036854775808 ∧
    sampleProto [7] = .ok ⟨[rmAWS 1]⟩ ∧
    (DecodeVarint (EncodeVarint [7].length ++ [7]) =
        ([7].length, (EncodeVarint [7].length).length) ∧
      Record.slice ⟨EncodeVarint [7].length ++ [7], []⟩ ((EncodeVarint [7].length).length : Nat)
        (((EncodeVarint [7].length).length + [7].length : Nat) : Int) = some [7] ∧
      (Unmarshal sampleProto [⟨EncodeVarint [7].length ++ [7], []⟩]).calls = [(0, [7])] ∧
      (∀ b : Metrics, sampleProto [7] = .ok b → isValid b = true →
        Unmarshal sampleProto [⟨EncodeVarint [7].length ++ [7], []⟩] =
          .ret ⟨⟨b.ResourceMetrics⟩, [], [(0, [7])]⟩ none)) :=
  ⟨by decide, rfl, Unmarshal_single_frame sampleProto [7] [] (by decide)⟩

/-! ### One record: the frames visited and the true frames -/

theorem slice_length (r : Record) (lo hi : Int) (p : List Nat) (h : r.slice lo hi = some p) :
    (p.length : Int) = hi - lo := by
  unfold Record.slice at h
  split at h
  · rename_i hb
    simp only [Option.some.injEq] at h
    subst h
    simp only [Record.cap] at hb
    rw [List.length_take, List.length_drop, List.length_append]
    omega
  · cases h

theorem isFrame_length (r : Record) (j : Nat) (p : List Nat) (h : r.isFrame j p) :
    p.length = (DecodeVarint r.bytes).1 := by
  have := slice_length r _ _ p h
  have e : (((j + 1) * ((DecodeVarint r.bytes).1 + (DecodeVarint r.bytes).2) : Nat) : Int) -
      ((j * ((DecodeVarint r.bytes).1 + (DecodeVarint r.bytes).2) +
        (DecodeVarint r.bytes).2 : Nat) : Int) = ((DecodeVarint r.bytes).1 : Int) := by
    push_cast; ring
  rw [e] at this
  exact_mod_cast this

theorem records_single_st (d : Deserializer) (i : Nat) (r : Record) (st : St) :
    (Unmarshal.records d [r] i st).st =
      (Unmarshal.frames d i r (r.bytes.length + 1) 0 st).st := by
  rw [records_cons]
  cases Unmarshal.frames d i r (r.bytes.length + 1) 0 st with
  | next st2 => dsimp only; rw [records_nil]
  | fatal st2 => rfl
  | fault st2 => rfl
  | timeout => rfl

theorem Unmarshal_single_calls (d : Deserializer) (r : Record) :
    ∃ payloads : List (List Nat),
      (Unmarshal d [r]).calls = payloads.map (fun p => (0, p)) ∧
      ∀ (j : Nat) (p : List Nat), payloads[j]? = some p → r.isFrame j p := by
  obtain ⟨st, hst, hcalls, _⟩ := Unmarshal_records_st d [r]
  rw [records_single_st] at hst
  obtain ⟨payloads, hp, hslices⟩ := frames_record_trace d 0 r ⟨NewMetrics, [], []⟩ st hst
  exact ⟨payloads, by rw [hcalls, hp]; rfl, hslices⟩

theorem length_le_flatten (l : List (List Nat)) :
    ∀ x ∈ l, x.length ≤ l.flatten.length := by
  induction l with
  | nil => intro x hx; cases hx
  | cons a t ih =>
    intro x hx
    rw [List.flatten_cons, List.length_append]
    rcases List.mem_cons.mp hx with rfl | hx
    · omega
    · have := ih x hx; omega

theorem map_pair_inj (xs ys : List (List Nat))
    (h : xs.map (fun p => ((0 : Nat), p)) = ys.map (fun p => ((0 : Nat), p))) : xs = ys := by
  have := congrArg (List.map Prod.snd) h
  simpa [List.map_map, Function.comp_def] using this

theorem length_le_frames (l : List (List Nat)) : l.length ≤ (l.map frameOf).flatten.length := by
  induction l with
  | nil => simp
  | cons a t ih =>
    have := (EncodeVarint_length a.length).1
    simp only [List.map_cons, List.flatten_cons, List.length_append, List.length_cons, frameOf]
    omega

theorem frames_uniform_run (d : Deserializer) (p1 : List Nat) (ps : List (List Nat))
    (spare : List Nat)
    (hgo : (((p1 :: ps).map frameOf).flatten).length < 9223372036854775808)
    (hsame : ∀ p ∈ ps, EncodeVarint p.length = EncodeVarint p1.length) :
    (Unmarshal d [⟨((p1 :: ps).map frameOf).flatten, spare⟩]).calls =
      (p1 :: ps).map (fun p => (0, p)) := by
  have hx : ∀ p ∈ p1 :: ps, p.length < 18446744073709551616 := by
    intro p hp
    have h1 := length_le_flatten ((p1 :: ps).map frameOf) (frameOf p) (List.mem_map_of_mem _ hp)
    simp only [frameOf, List.length_append] at h1
    omega
  have hall : ∀ p ∈ p1 :: ps, p.length = p1.length := by
    intro p hp
    rcases List.mem_cons.mp hp with rfl | hp1
    · rfl
    · exact EncodeVarint_inj _ _ (hx p hp) (hx p1 (List.mem_cons_self _ _)) (hsame p hp1)
  have hv : EncodeVarint p1.length ≠ [] := by
    intro hnil
    have := (EncodeVarint_length p1.length).1
    rw [hnil] at this
    exact absurd this (by decide)
  have hmap : (p1 :: ps).map frameOf = (p1 :: ps).map (fun p => EncodeVarint p1.length ++ p) := by
    apply List.map_congr_left
    intro p hp
    simp only [frameOf, hall p hp]
  have hbytes : (⟨((p1 :: ps).map frameOf).flatten, spare⟩ : Record).bytes =
      [] ++ ((p1 :: ps).map (fun p => EncodeVarint p1.length ++ p)).flatten := by
    rw [List.nil_append, ← hmap]
  have hdec : DecodeVarint (⟨((p1 :: ps).map frameOf).flatten, spare⟩ : Record).bytes =
      (p1.length, (EncodeVarint p1.length).length) := by
    have e : (⟨((p1 :: ps).map frameOf).flatten, spare⟩ : Record).bytes =
        EncodeVarint p1.length ++ (p1 ++ (ps.map frameOf).flatten) := by
      simp only [List.map_cons, List.flatten_cons, frameOf, List.append_assoc]
    rw [e]
    exact DecodeVarint_Encode p1.length _ (hx p1 (List.mem_cons_self _ _))
  have hfuel : (p1 :: ps).length < (((p1 :: ps).map frameOf).flatten).length + 1 := by
    have := length_le_frames (p1 :: ps)
    omega
  have hrun := frames_uniform d 0 ⟨((p1 :: ps).map frameOf).flatten, spare⟩
    (EncodeVarint p1.length) p1.length hv hdec hgo (p1 :: ps) []
    ((((p1 :: ps).map frameOf).flatten).length + 1) ⟨NewMetrics, [], []⟩ hbytes hall hfuel
  have h0 : ((([] : List Nat).length : Nat) : Int) = 0 := rfl
  rw [h0] at hrun
  have hrec : Unmarshal.records d [⟨((p1 :: ps).map frameOf).flatten, spare⟩] 0
      ⟨NewMetrics, [], []⟩ =
      .next ((p1 :: ps).foldl (fun s p => St.frame d 0 p s) ⟨NewMetrics, [], []⟩) := by
    rw [records_cons, hrun]
    dsimp only
    rw [records_nil]
  rw [Unmarshal_of_next d _ _ hrec]
  show (List.foldl (fun s p => St.frame d 0 p s) ⟨NewMetrics, [], []⟩ (p1 :: ps)).calls = _
  rw [foldl_frame_calls]
  rfl

/-- C18: within one record `Unmarshal` uses one pair `(n, nLen)` for every frame, the varint
decoded at offset 0 of the record: the `j`-th frame visited is the slice
`record[j*(n+nLen)+nLen : (j+1)*(n+nLen)]`, whatever bytes stand at the cursor. Consequently, on a
record made of back-to-back frames `varint(len p) ++ p` (a Go slice, so shorter than 2^63 bytes),
the payloads handed to the nested deserializer are the true payloads exactly when every frame's
length prefix has the same bytes as the first one. -/
theorem Unmarshal_same_varint (d : Deserializer) (p1 : List Nat) (ps : List (List Nat))
    (spare : List Nat)
    (hgo : (((p1 :: ps).map frameOf).flatten).length < 9223372036854775808) :
    (∀ (i : Nat) (r : Record) (st : St),
      ∀ st1 ∈ (Unmarshal.frames d i r (r.bytes.length + 1) 0 st).st,
        ∃ payloads : List (List Nat),
          st1.calls = st.calls ++ payloads.map (fun p => (i, p)) ∧
          ∀ (j : Nat) (p : List Nat), payloads[j]? = some p →
            r.slice
              ((j * ((DecodeVarint r.bytes).1 + (DecodeVarint r.bytes).2) +
                (DecodeVarint r.bytes).2 : Nat) : Int)
              (((j + 1) * ((DecodeVarint r.bytes).1 + (DecodeVarint r.bytes).2) : Nat) : Int) =
                some p) ∧
    ((Unmarshal d [⟨((p1 :: ps).map frameOf).flatten, spare⟩]).calls =
        (p1 :: ps).map (fun p => (0, p)) ↔
      ∀ p ∈ ps, EncodeVarint p.length = EncodeVarint p1.length) := by
  refine ⟨fun i r st => frames_record_trace d i r st, ?_, frames_uniform_run d p1 ps spare hgo⟩
  intro hcalls p hp
  obtain ⟨payloads, hpay, hslices⟩ :=
    Unmarshal_single_calls d ⟨((p1 :: ps).map frameOf).flatten, spare⟩
  have hlist : payloads = p1 :: ps := map_pair_inj _ _ (hpay.symm.trans hcalls)
  have hlen : ∀ q ∈ p1 :: ps, q.length =
      (DecodeVarint (⟨((p1 :: ps).map frameOf).flatten, spare⟩ : Record).bytes).1 := by
    intro q hq
    rw [← hlist] at hq
    obtain ⟨j, hj⟩ := List.getElem?_of_mem hq
    exact isFrame_length _ j q (hslices j q hj)
  rw [hlen p (List.mem_cons_of_mem _ hp), hlen p1 (List.mem_cons_self _ _)]

theorem Unmarshal_same_varint_witness :
    (([[7], [8, 9, 10]].map frameOf).flatten).length < 9223372036854775808 ∧
    ([[7], [8, 9, 10]].map frameOf).flatten = twoFrameRecord.bytes ∧
    ((∀ (i : Nat) (r : Record) (st : St),
        ∀ st1 ∈ (Unmarshal.frames sampleProto i r (r.bytes.length + 1) 0 st).st,
          ∃ payloads : List (List Nat),
            st1.calls = st.calls ++ payloads.map (fun p => (i, p)) ∧
            ∀ (j : Nat) (p : List Nat), payloads[j]? = some p →
              r.slice
                ((j * ((DecodeVarint r.bytes).1 + (DecodeVarint r.bytes).2) +
                  (DecodeVarint r.bytes).2 : Nat) : Int)
                (((j + 1) * ((DecodeVarint r.bytes).1 + (DecodeVarint r.bytes).2) : Nat) : Int) =
                  some p) ∧
      ((Unmarshal sampleProto [⟨([[7], [8, 9, 10]].map frameOf).flatten, []⟩]).calls =
          [[7], [8, 9, 10]].map (fun p => (0, p)) ↔
        ∀ p ∈ [[8, 9, 10]], EncodeVarint p.length = EncodeVarint [7].length)) :=
  ⟨by decide, by decide, Unmarshal_same_varint sampleProto [7] [[8, 9, 10]] [] (by decide)⟩

/-! ### Every frame of every record -/

theorem slice_value (r : Record) (lo hi : Int) (p : List Nat) (h : r.slice lo hi = some p) :
    p = ((r.bytes ++ r.spare).drop lo.toNat).take (hi - lo).toNat := by
  unfold Record.slice at h
  split at h
  · simp only [Option.some.injEq] at h
    exact h.symm
  · cases h

theorem frames_next_trace (d : Deserializer) (i : Nat) (r : Record)
    (hn : (DecodeVarint r.bytes).2 ≠ 0) (fuel : Nat) :
    ∀ (k : Nat) (st st1 : St),
      ((k * ((DecodeVarint r.bytes).1 + (DecodeVarint r.bytes).2) : Nat) : Int) <
        9223372036854775808 →
      Unmarshal.frames d i r fuel
        ((k * ((DecodeVarint r.bytes).1 + (DecodeVarint r.bytes).2) : Nat) : Int) st =
          .next st1 →
      ∃ c, st1.calls = st.calls ++ (List.range' k c).map (fun j => (i, r.payloadAt j)) ∧
        r.bytes.length ≤ (k + c) * ((DecodeVarint r.bytes).1 + (DecodeVarint r.bytes).2) ∧
        (c = 0 ∨
          (k + c - 1) * ((DecodeVarint r.bytes).1 + (DecodeVarint r.bytes).2) <
            r.bytes.length) := by
  induction fuel with
  | zero =>
    intro k st st1 _ h
    rw [Unmarshal.frames] at h
    cases h
  | succ fuel ih =>
    intro k st st1 hlt h
    by_cases hlen : ((k * ((DecodeVarint r.bytes).1 + (DecodeVarint r.bytes).2) : Nat) : Int) <
        r.len
    · have hf : ¬ ((DecodeVarint r.bytes).2 = 0 ∧
          ((k * ((DecodeVarint r.bytes).1 + (DecodeVarint r.bytes).2) : Nat) : Int) = 0) :=
        fun hc => hn hc.1
      cases hs : r.slice
          (wrapInt (((k * ((DecodeVarint r.bytes).1 + (DecodeVarint r.bytes).2) : Nat) : Int) +
            ((DecodeVarint r.bytes).2 : Nat)))
          (wrapInt (wrapInt
            (((k * ((DecodeVarint r.bytes).1 + (DecodeVarint r.bytes).2) : Nat) : Int) +
              ((DecodeVarint r.bytes).2 : Nat)) +
            wrapInt ((DecodeVarint r.bytes).1 : Nat))) with
      | none =>
        rw [frames_fault d i r fuel _ st hlen hf hs] at h
        cases h
      | some payload =>
        rw [frames_step d i r fuel _ st payload hlen hf hs] at h
        have hval := slice_value r _ _ payload hs
        obtain ⟨e1, e2, e3, _, hlt1⟩ := slice_exact r _ _ _ payload (Int.natCast_nonneg _) hlt
          (DecodeVarint_le r.bytes) (DecodeVarint_lt r.bytes) hs
        rw [e3] at h
        rw [e2, e1] at hval
        clear e1 e2 e3 hs hf
        have hnext :
            ((k * ((DecodeVarint r.bytes).1 + (DecodeVarint r.bytes).2) : Nat) : Int) +
                ((DecodeVarint r.bytes).2 : Nat) + ((DecodeVarint r.bytes).1 : Nat) =
              (((k + 1) * ((DecodeVarint r.bytes).1 + (DecodeVarint r.bytes).2) : Nat) : Int) := by
          push_cast
          ring
        rw [hnext] at h hlt1
        have hlo :
            (((k * ((DecodeVarint r.bytes).1 + (DecodeVarint r.bytes).2) : Nat) : Int) +
                ((DecodeVarint r.bytes).2 : Nat)).toNat =
              k * ((DecodeVarint r.bytes).1 + (DecodeVarint r.bytes).2) +
                (DecodeVarint r.bytes).2 := by
          omega
        have hhi :
            (((k * ((DecodeVarint r.bytes).1 + (DecodeVarint r.bytes).2) : Nat) : Int) +
                ((DecodeVarint r.bytes).2 : Nat) + ((DecodeVarint r.bytes).1 : Nat) -
              (((k * ((DecodeVarint r.bytes).1 + (DecodeVarint r.bytes).2) : Nat) : Int) +
                ((DecodeVarint r.bytes).2 : Nat))).toNat = (DecodeVarint r.bytes).1 := by
          omega
        rw [hlo, hhi] at hval
        have hpay : payload = r.payloadAt k := hval
        obtain ⟨c, hc, hL, hlast⟩ := ih (k + 1) _ st1 hlt1 h
        refine ⟨c + 1, ?_, ?_, ?_⟩
        · rw [hc, St.frame_calls, hpay, List.range'_succ, List.map_cons, List.append_assoc]
          rfl
        · have e : k + (c + 1) = k + 1 + c := by omega
          rw [e]
          exact hL
        · right
          have e : k + (c + 1) - 1 = k + c := by omega
          rw [e]
          rcases hlast with h0 | h1
          · subst h0
            have hl : ((k * ((DecodeVarint r.bytes).1 + (DecodeVarint r.bytes).2) : Nat) : Int) <
                (r.bytes.length : Int) := hlen
            rw [Nat.add_zero]
            exact Int.ofNat_lt.mp hl
          · have e2 : k + 1 + c - 1 = k + c := by omega
            rw [e2] at h1
            exact h1
    · rw [frames_done d i r fuel _ st hlen] at h
      have hst : st = st1 := by
        injection h
      subst hst
      refine ⟨0, by simp, ?_, Or.inl rfl⟩
      have hl : ¬ ((k * ((DecodeVarint r.bytes).1 + (DecodeVarint r.bytes).2) : Nat) : Int) <
          (r.bytes.length : Int) := hlen
      rw [Nat.add_zero]
      exact Nat.le_of_not_lt (fun hc => hl (Int.ofNat_lt.mpr hc))

theorem frameCount_eq (L s c : Nat) (hL : L ≤ c * s) (hlast : c = 0 ∨ (c - 1) * s < L) :
    (L + s - 1) / s = c := by
  rcases Nat.eq_zero_or_pos s with hs | hs
  · subst hs
    rw [Nat.mul_zero] at hL hlast
    rcases hlast with h0 | h1
    · subst h0
      simp
    · omega
  · rcases hlast with h0 | h1
    · subst h0
      rw [Nat.zero_mul] at hL
      have : L = 0 := by omega
      subst this
      rw [Nat.zero_add]
      exact Nat.div_eq_of_lt (by omega)
    · have hc : 0 < c := by
        rcases Nat.eq_zero_or_pos c with h0 | h0
        · subst h0
          rw [Nat.zero_mul] at hL
          omega
        · exact h0
      obtain ⟨c1, rfl⟩ : ∃ c1, c = c1 + 1 := ⟨c - 1, by omega⟩
      rw [Nat.add_sub_cancel] at h1
      have e : (c1 + 1) * s = c1 * s + s := Nat.succ_mul c1 s
      rw [e] at hL
      apply Nat.div_eq_of_lt_le
      · rw [e]
        omega
      · have e3 : (c1 + 1 + 1) * s = c1 * s + s + s := by
          rw [Nat.succ_mul, Nat.succ_mul]
        rw [e3]
        omega

theorem frames_record_next (d : Deserializer) (i : Nat) (r : Record) (st st1 : St)
    (h : Unmarshal.frames d i r (r.bytes.length + 1) 0 st = .next st1) :
    st1.calls = st.calls ++ r.frames.map (fun p => (i, p)) := by
  by_cases hn : (DecodeVarint r.bytes).2 = 0
  · by_cases hb : r.bytes = []
    · rw [frames_empty d i r st hb] at h
      have hst : st = st1 := by
        injection h
      subst hst
      have hr : r.frames = [] := by
        unfold Record.frames Record.frameCount
        rw [hb]
        rfl
      rw [hr]
      simp
    · rw [frames_bad_start d i r st hb hn] at h
      cases h
  · have h0 : (((0 * ((DecodeVarint r.bytes).1 + (DecodeVarint r.bytes).2) : Nat)) : Int) = 0 := by
      simp
    rw [← h0] at h
    obtain ⟨c, hc, hL, hlast⟩ := frames_next_trace d i r hn _ 0 st st1 (by rw [h0]; decide) h
    rw [Nat.zero_add] at hL hlast
    have hcount : r.frameCount = c := frameCount_eq _ _ c hL hlast
    rw [hc]
    unfold Record.frames
    rw [hcount, List.range_eq_range', List.map_map]
    rfl

theorem records_next_trace (d : Deserializer) (records : List Record) :
    ∀ (i : Nat) (st st1 : St), Unmarshal.records d records i st = .next st1 →
      st1.calls = st.calls ++ framesFrom i records := by
  induction records with
  | nil =>
    intro i st st1 h
    rw [records_nil] at h
    have hst : st = st1 := by
      injection h
    subst hst
    simp [framesFrom]
  | cons r rest ih =>
    intro i st st1 h
    rw [records_cons] at h
    cases hfr : Unmarshal.frames d i r (r.bytes.length + 1) 0 st with
    | next st2 =>
      rw [hfr] at h
      have h2 := ih (i + 1) st2 st1 h
      rw [h2, frames_record_next d i r st st2 hfr, framesFrom, List.append_assoc]
    | fatal st2 =>
      rw [hfr] at h
      cases h
    | fault st2 =>
      rw [hfr] at h
      cases h
    | timeout =>
      rw [hfr] at h
      cases h

/-- C1: when `Unmarshal` returns without the fatal abort, the payloads it handed to the
deserializer are exactly the frames of every record of the batch, in record order and then frame
order, each frame being the bytes `record[j*(n+nLen)+nLen : (j+1)*(n+nLen)]` of its record
(`framesFrom 0 records`, a function of the records' bytes alone), and the resource groups of the
returned batch are the concatenation over these frames, in that order, of the resource groups of
every frame whose payload deserializes and passes `isValid`; such a frame contributes all its
resource groups in their order, every other frame contributes none. -/
theorem Unmarshal_groups (d : Deserializer) (records : List Record) (st : St) (err : Option Err)
    (h : Unmarshal d records = .ret st err) (hne : err ≠ some .errInvalidOtelFormatStart) :
    st.md.ResourceMetrics =
        ((framesFrom 0 records).map (fun c =>
          match d c.2 with
          | .ok req => if isValid req = true then req.ResourceMetrics else []
          | .error _ => [])).flatten ∧
      st.calls = framesFrom 0 records := by
  have hcalls : st.calls = framesFrom 0 records := by
    rcases Unmarshal_ret_records d records st err h with ⟨h1, _⟩ | ⟨_, h2⟩
    · have := records_next_trace d records 0 _ st h1
      rw [this]
      rfl
    · exact absurd h2 hne
  refine ⟨?_, hcalls⟩
  rw [← hcalls]
  exact (Unmarshal_ret_Inv d records st err h).groups

theorem Unmarshal_groups_witness :
    Unmarshal orderProto orderRecords = .ret orderSt none ∧
      framesFrom 0 orderRecords =
        [(0, [6]), (0, [8]), (0, [7]), (2, [7]), (2, [9]), (2, [6])] ∧
      orderSt.md.ResourceMetrics =
        [rmAWS 2, rmAWS 3, rmAWS 1, rmAWS 1, rmAWS 2, rmAWS 3] ∧
      (orderSt.md.ResourceMetrics =
          ((framesFrom 0 orderRecords).map (fun c =>
            match orderProto c.2 with
            | .ok req => if isValid req = true then req.ResourceMetrics else []
            | .error _ => [])).flatten ∧
        orderSt.calls = framesFrom 0 orderRecords) :=
  ⟨by decide, by decide, rfl,
    Unmarshal_groups orderProto orderRecords orderSt none (by decide) (by decide)⟩

end otelmetricstream
